import Mathlib

/-!
Shallow embedding of the chain-synchronization CORE of cpp-filecoin:
the in-memory branch Graph (src/core/storage/indexdb/graph.cpp), the
sync orchestrator (SyncJob / Syncer) and the InterpreterJob.

`std::map` / `std::set` are modelled as key-sorted association lists /
sorted lists; `outcome::result` becomes an explicit sum; a failed C++
`assert` (which aborts the process rather than returning an error) is a
distinguished `Res.abort` outcome.  External collaborators (ChainDb,
TipsetLoader, scheduler, KV store) are oracle records of pure functions,
and side effects on them (load requests, scheduled callbacks, interpreter
invocations) are recorded in an explicit event list.
-/

namespace FcSync

abbrev BranchId := Nat
abbrev Height := Nat
abbrev TipsetHash := Nat

/-- Error enum of `fc::storage::indexdb` (graph part). -/
inductive GError where
  | NO_CURRENT_CHAIN
  | BRANCH_NOT_FOUND
  | BRANCH_IS_NOT_A_HEAD
  | BRANCH_IS_NOT_A_ROOT
  | LINK_HEIGHT_MISMATCH
  | CYCLE_DETECTED
  | GRAPH_LOAD_ERROR
deriving DecidableEq, Repr

/-- Outcome of a graph mutator: `ok`, an error return, or a failed C++
`assert` (process abort, distinct from an error return). -/
inductive Res (α : Type) where
  | ok (a : α)
  | err (e : GError)
  | abort
deriving DecidableEq, Repr

/-- `std::set<Nat>` insert: sorted, duplicate-free insertion. -/
def setInsert (x : Nat) : List Nat → List Nat
  | [] => [x]
  | y :: ys => if x < y then x :: y :: ys else if x = y then y :: ys else y :: setInsert x ys

/-- `std::set<Nat>` erase (first occurrence; sets hold no duplicates). -/
def setErase (x : Nat) (s : List Nat) : List Nat := s.erase x

/-- `std::map` find. -/
def omFind {α : Type} (m : List (Nat × α)) (k : Nat) : Option α :=
  match m with
  | [] => none
  | (k1, v) :: rest => if k = k1 then some v else omFind rest k

/-- `std::map` insert-or-assign (`m[k] = v`), keeping keys sorted. -/
def omSet {α : Type} (k : Nat) (v : α) : List (Nat × α) → List (Nat × α)
  | [] => [(k, v)]
  | (k1, v1) :: rest =>
    if k = k1 then (k, v) :: rest
    else if k < k1 then (k, v) :: (k1, v1) :: rest
    else (k1, v1) :: omSet k v rest

/-- `std::map` erase by key. -/
def omErase {α : Type} (k : Nat) : List (Nat × α) → List (Nat × α)
  | [] => []
  | (k1, v1) :: rest => if k = k1 then rest else (k1, v1) :: omErase k rest

/-- `m[k]` on a `std::map`: value-initializes a missing entry (modelled by
the supplied default) and returns the stored value with the updated map. -/
def omGetOrInsert {α : Type} (m : List (Nat × α)) (k : Nat) (d : α) : α × List (Nat × α) :=
  match omFind m k with
  | some v => (v, m)
  | none => (d, omSet k d m)

/-- `std::map::lower_bound`: first entry whose key is `≥ k`. -/
def omLowerBound {α : Type} (k : Nat) : List (Nat × α) → Option (Nat × α)
  | [] => none
  | (k1, v) :: rest => if k ≤ k1 then some (k1, v) else omLowerBound k rest

/-- Branch record (`fc::storage::indexdb::Branch`); `top`/`bottom` tipset
hashes are opaque numbers. -/
structure Branch where
  id : BranchId
  parent : BranchId
  top : TipsetHash
  top_height : Height
  bottom : TipsetHash
  bottom_height : Height
  forks : List BranchId
deriving DecidableEq, Repr

/-- A value-initialized `Branch` (what `std::map::operator[]` creates). -/
def Branch.mkDefault : Branch := ⟨0, 0, 0, 0, 0, 0, []⟩

/-- In-memory graph state: `all_branches_`, `roots_`, `heads_`,
`current_chain_` (ordered map height → branch id) and
`current_chain_bottom_height_`. -/
structure Graph where
  all_branches : List (BranchId × Branch)
  roots : List BranchId
  heads : List BranchId
  current_chain : List (Height × BranchId)
  current_chain_bottom_height : Height
deriving DecidableEq, Repr

def Graph.empty : Graph := ⟨[], [], [], [], 0⟩

/-- `Graph::findByHeight`. -/
def Graph.findByHeight (g : Graph) (height : Height) : Res BranchId :=
  if g.current_chain = [] then .err .NO_CURRENT_CHAIN
  else if height < g.current_chain_bottom_height then .err .BRANCH_NOT_FOUND
  else
    match omLowerBound height g.current_chain with
    | none => .err .BRANCH_NOT_FOUND
    | some kv => .ok kv.2

/-- Result of the `switchToHead` walk loop. -/
inductive WalkRes where
  | done (chain : List (Height × BranchId))
  | cycle
  | stuck
deriving DecidableEq, Repr

/-- The `for(;;)` loop of `Graph::switchToHead`: walks parent pointers from
`curr`, executing `current_chain_[it->second.top_height] =
current_chain_[it->second.id]` at each step (note the self-referential read
present in the source), guarded by the cycle counter.  `stuck` is the failed
`assert` on a missing branch. -/
def switchLoop (ab : List (BranchId × Branch)) :
    Nat → BranchId → List (Height × BranchId) → WalkRes
  | fuel, curr, chain =>
    match omFind ab curr with
    | none => .stuck
    | some b =>
      let vc := omGetOrInsert chain b.id 0
      let chain2 := omSet b.top_height vc.1 vc.2
      if b.parent = 0 then .done chain2
      else
        match fuel with
        | 0 => .cycle
        | f + 1 => if f = 0 then .cycle else switchLoop ab f b.parent chain2

/-- `Graph::switchToHead`. -/
def Graph.switchToHead (g : Graph) (head : BranchId) : Res Unit × Graph :=
  if (g.current_chain.getLast?.map Prod.snd) = some head then (.ok (), g)
  else if head ∉ g.heads then (.err .BRANCH_IS_NOT_A_HEAD, g)
  else
    match switchLoop g.all_branches (g.all_branches.length + 1) head [] with
    | .cycle => (.err .CYCLE_DETECTED, { g with current_chain := [] })
    | .stuck => (.abort, { g with current_chain := [] })
    | .done chain =>
      match chain with
      | [] => (.abort, { g with current_chain := [] })
      | (_, v0) :: _ =>
        let bm := omGetOrInsert g.all_branches v0 Branch.mkDefault
        (.ok (), { g with
          all_branches := bm.2,
          current_chain := chain,
          current_chain_bottom_height := bm.1.bottom_height })

/-- First phase of `Graph::load`: insert every record into `all_branches_`
via `try_emplace`, failing on a zero id or a duplicate id. -/
def loadPhase1 : List Branch → List (BranchId × Branch) → Option (List (BranchId × Branch))
  | [], m => some m
  | b :: rest, m =>
    if b.id = 0 then none
    else
      match omFind m b.id with
      | some _ => none
      | none => loadPhase1 rest (omSet b.id b m)

/-- Second phase of `Graph::load`: for each entry (in key order) check the
height and parent consistency conditions, record roots and fill each
parent's `forks`. -/
def loadPhase2 : List BranchId → List (BranchId × Branch) → List BranchId →
    Option (List (BranchId × Branch) × List BranchId)
  | [], m, roots => some (m, roots)
  | k :: rest, m, roots =>
    match omFind m k with
    | none => none
    | some b =>
      if b.top_height < b.bottom_height then none
      else if b.parent ≠ 0 then
        if b.parent = b.id then none
        else
          match omFind m b.parent with
          | none => none
          | some pb =>
            if b.bottom_height ≤ pb.top_height then none
            else loadPhase2 rest (omSet b.parent { pb with forks := setInsert b.id pb.forks } m) roots
      else loadPhase2 rest m (setInsert b.id roots)

/-- `Graph::load`.  Starts from a cleared state; any failure runs
`loadFailed()` which wipes every index and returns `GRAPH_LOAD_ERROR`. -/
def Graph.load (bs : List Branch) : Res Unit × Graph :=
  match loadPhase1 bs [] with
  | none => (.err .GRAPH_LOAD_ERROR, Graph.empty)
  | some m =>
    match loadPhase2 (m.map Prod.fst) m [] with
    | none => (.err .GRAPH_LOAD_ERROR, Graph.empty)
    | some (m2, roots) =>
      let heads := (m2.map Prod.snd).filterMap
        (fun b => if b.forks = [] then some b.id else none)
      (.ok (), { all_branches := m2, roots := roots, heads := heads,
                 current_chain := [], current_chain_bottom_height := 0 })

/-- `Graph::merge`: absorb collapsed branch `b` into its single fork.  The
successor adopts `b`'s bottom, bottom height and parent; the grandparent's
forks set replaces `b` by the successor.  Returns `(b.parent, successor)`. -/
def Graph.mergeStep (ab : List (BranchId × Branch)) (b : Branch) :
    Res (BranchId × BranchId) × List (BranchId × Branch) :=
  match b.forks with
  | [] => (.abort, ab)
  | s :: _ =>
    match omFind ab s with
    | none => (.abort, ab)
    | some sb =>
      let sb1 := { sb with bottom := b.bottom, bottom_height := b.bottom_height,
                           parent := b.parent }
      let ab1 := omSet s sb1 ab
      if b.parent ≠ 0 then
        match omFind ab1 b.parent with
        | none => (.abort, ab1)
        | some gp =>
          (.ok (b.parent, s),
           omSet b.parent { gp with forks := setInsert s (setErase b.id gp.forks) } ab1)
      else (.ok (b.parent, s), ab1)

/-- `Graph::removeHead`. -/
def Graph.removeHead (g : Graph) (head : BranchId) : Res (BranchId × BranchId) × Graph :=
  if head ∉ g.heads then (.err .BRANCH_IS_NOT_A_HEAD, g)
  else
    let heads1 := setErase head g.heads
    let roots1 := setErase head g.roots
    let chain1 :=
      if (g.current_chain.getLast?.map Prod.snd) = some head then []
      else g.current_chain
    match omFind g.all_branches head with
    | none => (.abort, g)
    | some hb =>
      let parent := hb.parent
      let ab1 := omErase head g.all_branches
      if parent = 0 then
        (.ok (0, 0), { g with all_branches := ab1, heads := heads1, roots := roots1,
                              current_chain := chain1 })
      else
        match omFind ab1 parent with
        | none => (.abort, { g with all_branches := ab1, heads := heads1, roots := roots1,
                                    current_chain := chain1 })
        | some pb =>
          let pb1 := { pb with forks := setErase head pb.forks }
          let ab2 := omSet parent pb1 ab1
          if pb1.forks.length ≠ 1 then
            (.ok (0, 0), { g with all_branches := ab2, heads := heads1, roots := roots1,
                                  current_chain := chain1 })
          else
            let ab3 := omErase parent ab2
            let rm := Graph.mergeStep ab3 pb1
            (rm.1, { g with all_branches := rm.2, heads := heads1, roots := roots1,
                            current_chain := chain1 })

/-- `Graph::linkBranches` (partially implemented in the source: after the
two validity checks it returns `0` without mutating anything). -/
def Graph.linkBranches (g : Graph) (base_branch successor_branch : BranchId)
    (_parent_tipset : TipsetHash) (_parent_height : Height) : Res BranchId × Graph :=
  if successor_branch ∉ g.roots then (.err .BRANCH_IS_NOT_A_ROOT, g)
  else
    match omFind g.all_branches base_branch with
    | none => (.err .BRANCH_NOT_FOUND, g)
    | some _ => (.ok 0, g)

/-- `Graph::linkToHead`.  On success the successor root absorbs the base
head's bottom, bottom height and parent, the grandparent's forks (or the
roots set) are rewired, a current chain ending at the base is invalidated
and the base leaves `heads_` (the source ends with a discarded
`all_branches_` expression, so the base record itself stays in the map). -/
def Graph.linkToHead (g : Graph) (base_branch successor_branch : BranchId) :
    Res Unit × Graph :=
  if successor_branch ∉ g.roots then (.err .BRANCH_IS_NOT_A_ROOT, g)
  else if base_branch ∉ g.heads then (.err .BRANCH_IS_NOT_A_HEAD, g)
  else
    match omFind g.all_branches base_branch with
    | none => (.err .BRANCH_NOT_FOUND, g)
    | some base =>
      match omFind g.all_branches successor_branch with
      | none => (.err .BRANCH_NOT_FOUND, g)
      | some succ =>
        if succ.bottom_height ≤ base.top_height then (.err .LINK_HEIGHT_MISMATCH, g)
        else
          let succ1 := { succ with bottom_height := base.bottom_height,
                                   bottom := base.bottom, parent := base.parent }
          let ab1 := omSet successor_branch succ1 g.all_branches
          let step :=
            if base.parent ≠ 0 then
              match omFind ab1 base.parent with
              | none => none
              | some pb =>
                some (omSet base.parent
                        { pb with forks := setInsert successor_branch
                                             (setErase base_branch pb.forks) } ab1,
                      g.roots)
            else
              some (ab1, setInsert successor_branch (setErase base_branch g.roots))
          match step with
          | none => (.abort, { g with all_branches := ab1 })
          | some (ab2, roots1) =>
            let chain1 :=
              if (g.current_chain.getLast?.map Prod.snd) = some base_branch then []
              else g.current_chain
            (.ok (), { g with all_branches := ab2, roots := roots1,
                              heads := setErase base_branch g.heads,
                              current_chain := chain1 })

/-! Sync orchestrator (`fc::sync`): SyncJob and Syncer.  A `TipsetKey` is
identified with its hash; tipsets carry their own hash, the parents' key
hash and a height.  `std::error_code` becomes a numeric code. -/

abbrev PeerId := Nat
abbrev TipsetKey := Nat
abbrev ECode := Nat

structure Tipset where
  hash : TipsetHash
  parents : TipsetKey
  height : Height
deriving DecidableEq, Repr

/-- `SyncStatus::StatusCode`. -/
inductive StatusCode where
  | IDLE
  | IN_PROGRESS
  | SYNCED_TO_GENESIS
  | INTERRUPTED
  | BAD_BLOCKS
  | INTERNAL_ERROR
deriving DecidableEq, Repr

/-- `fc::sync::SyncStatus` (error code `0` stands for "no error"). -/
structure SyncStatus where
  code : StatusCode
  error : ECode
  peer : Option PeerId
  head : Option TipsetKey
  last_loaded : Option TipsetHash
  next : Option TipsetHash
  total : Nat
deriving DecidableEq, Repr

def SyncStatus.init : SyncStatus :=
  { code := .IDLE, error := 0, peer := none, head := none,
    last_loaded := none, next := none, total := 0 }

structure SyncJobState where
  active : Bool
  status : SyncStatus
deriving DecidableEq, Repr

def SyncJobState.init : SyncJobState := ⟨false, SyncStatus.init⟩

/-- Observable side effects of the sync machinery: a `loadTipsetAsync`
request to the TipsetLoader, or a status callback handed to the scheduler. -/
inductive SEvent where
  | loadRequested (key : TipsetKey) (peer : Option PeerId) (depth : Nat)
  | callbackScheduled
deriving DecidableEq, Repr

/-- Oracle view of the external collaborators of a SyncJob. -/
structure SyncEnv where
  tipsetIsStored : TipsetHash → Bool
  getUnsyncedBottom : TipsetKey → Except ECode (Option Tipset)
  storeTipset : Tipset → TipsetKey → Except ECode (Option Tipset)
  loadTipsetAsync : TipsetKey → Option PeerId → Nat → Except ECode Unit

/-- `SyncJob::internalError`: records the error, flips the status to
`INTERNAL_ERROR` and schedules the terminal callback. -/
def SyncJob.internalError (s : SyncJobState) (e : ECode) : SyncJobState × List SEvent :=
  ({ s with status := { s.status with error := e, code := .INTERNAL_ERROR } },
   [.callbackScheduled])

/-- Height decrement on a `uint64_t` (`roots->height() - 1`). -/
def heightPred (h : Height) : Nat :=
  if h = 0 then 2 ^ 64 - 1 else h - 1

/-- `SyncJob::nextTarget`.  With no further target the job is synced to
genesis (`next` becomes the empty hash); otherwise the parents' tipset is
requested from the loader, any loader error flowing into `internalError`
through the caller's catch block. -/
def SyncJob.nextTarget (env : SyncEnv) (s : SyncJobState) (last_loaded : Option Tipset) :
    SyncJobState × List SEvent :=
  match last_loaded with
  | none =>
    ({ s with status := { s.status with next := some 0, code := .SYNCED_TO_GENESIS } },
     [.callbackScheduled])
  | some ts =>
    let s1 : SyncJobState :=
      { s with status := { s.status with last_loaded := some ts.hash,
                                         next := some ts.parents } }
    let ev := SEvent.loadRequested ts.parents s1.status.peer (heightPred ts.height)
    match env.loadTipsetAsync ts.parents s1.status.peer (heightPred ts.height) with
    | .ok _ => (s1, [ev])
    | .error e =>
      let r := SyncJob.internalError s1 e
      (r.1, ev :: r.2)

/-- `SyncJob::start`. -/
def SyncJob.start (env : SyncEnv) (s : SyncJobState) (peer : PeerId) (head : TipsetKey)
    (probable_depth : Nat) : SyncJobState × List SEvent :=
  if s.active then (s, [])
  else
    let s1 : SyncJobState :=
      { active := true,
        status := { s.status with peer := some peer, head := some head } }
    if ¬ env.tipsetIsStored head then
      let ev := SEvent.loadRequested head s1.status.peer probable_depth
      match env.loadTipsetAsync head s1.status.peer probable_depth with
      | .ok _ =>
        ({ s1 with status := { s1.status with next := some head, code := .IN_PROGRESS } },
         [ev])
      | .error e =>
        let r := SyncJob.internalError s1 e
        (r.1, ev :: r.2)
    else
      match env.getUnsyncedBottom head with
      | .error e => SyncJob.internalError s1 e
      | .ok maybe_next => SyncJob.nextTarget env s1 maybe_next

/-- `SyncJob::onTipsetLoaded`: deliveries whose hash does not match
`status_.next`, or arriving outside `IN_PROGRESS`, are dropped. -/
def SyncJob.onTipsetLoaded (env : SyncEnv) (s : SyncJobState) (hash : TipsetHash)
    (result : Except ECode Tipset) : SyncJobState × List SEvent :=
  if s.status.code ≠ .IN_PROGRESS then (s, [])
  else
    match s.status.next with
    | none => (s, [])
    | some n =>
      if hash ≠ n then (s, [])
      else
        match result with
        | .error e => SyncJob.internalError s e
        | .ok ts =>
          match env.storeTipset ts ts.parents with
          | .error e => SyncJob.internalError s e
          | .ok maybe_next => SyncJob.nextTarget env s maybe_next

/-- A pending sync target of the Syncer. -/
structure Target where
  head_tipset : TipsetKey
  weight : Nat
  height : Height
deriving DecidableEq, Repr

/-- `std::unordered_map` upsert (`pending_targets_[peer] = target`): replace
in place when present, append otherwise. -/
def upsert {α : Type} (k : Nat) (v : α) : List (Nat × α) → List (Nat × α)
  | [] => [(k, v)]
  | (k1, v1) :: rest => if k = k1 then (k, v) :: rest else (k1, v1) :: upsert k v rest

structure Syncer where
  started : Bool
  current_job : Option SyncJobState
  pending_targets : List (PeerId × Target)
  current_weight : Nat
  current_height : Height
  last_good_peer : Option PeerId
  probable_height : Height
deriving DecidableEq, Repr

/-- `Syncer::isActive`. -/
def Syncer.isActive (s : Syncer) : Bool :=
  s.started && (match s.current_job with | some j => j.active | none => false)

/-- `Syncer::startJob` (creates the job lazily, computes the probable depth
from the probable height, and starts the job). -/
def Syncer.startJob (env : SyncEnv) (s : Syncer) (peer : PeerId) (head_tipset : TipsetKey)
    (height : Height) : Syncer × List SEvent :=
  let j0 := s.current_job.getD SyncJobState.init
  let probable_depth := if s.probable_height < height then height - s.probable_height else height
  let r := SyncJob.start env j0 peer head_tipset probable_depth
  ({ s with current_job := some r.1 }, r.2)

/-- `Syncer::newTarget`. -/
def Syncer.newTarget (env : SyncEnv) (s : Syncer) (peer : Option PeerId)
    (head_tipset : TipsetKey) (weight : Nat) (height : Height) : Syncer × List SEvent :=
  if weight < s.current_weight ∧ height < s.current_height then (s, [])
  else
    let peer1 := match peer with | some p => some p | none => s.last_good_peer
    match peer1 with
    | none => (s, [])
    | some p =>
      if s.started = true ∧ s.isActive = false then
        Syncer.startJob env s p head_tipset height
      else
        ({ s with pending_targets := upsert p ⟨head_tipset, weight, height⟩ s.pending_targets },
         [])

/-- The selection loop of `Syncer::chooseNextTarget`, carrying the running
`max_weight`, the (write-only) `max_height` and the current candidate.  Note
the tie branch compares and assigns against `current_height_`, exactly as
the source does. -/
def chooseLoop (ch : Height) : List (PeerId × Target) → Nat → Height →
    Option (PeerId × Target) → Option (PeerId × Target)
  | [], _, _, target => target
  | (p, t) :: rest, max_weight, max_height, target =>
    if max_weight < t.weight then chooseLoop ch rest t.weight max_height (some (p, t))
    else if t.weight = max_weight ∧ ch < t.height then chooseLoop ch rest max_weight ch (some (p, t))
    else chooseLoop ch rest max_weight max_height target

/-- `Syncer::chooseNextTarget`: returns the chosen pending target (if any)
and the resulting syncer state (all pending targets are discarded when none
qualifies). -/
def Syncer.chooseNextTarget (s : Syncer) : Option (PeerId × Target) × Syncer :=
  if s.pending_targets = [] then (none, s)
  else
    match chooseLoop s.current_height s.pending_targets s.current_weight s.current_height none with
    | none => (none, { s with pending_targets := [] })
    | some pt => (some pt, s)

/-! InterpreterJob (`fc::sync::InterpreterJob`).  The interpretation result
of a tipset is an opaque number; the memo store and the ChainDb walks are
oracle functions (`walkBackward` yields the tipsets the walk would visit in
order, the callback fold over them is explicit). -/

abbrev StateResult := Nat

instance {ε α : Type} [DecidableEq ε] [DecidableEq α] : DecidableEq (Except ε α) :=
  fun a b =>
    match a, b with
    | .error e1, .error e2 =>
      if h : e1 = e2 then .isTrue (by rw [h]) else .isFalse (by intro hc; cases hc; exact h rfl)
    | .ok v1, .ok v2 =>
      if h : v1 = v2 then .isTrue (by rw [h]) else .isFalse (by intro hc; cases hc; exact h rfl)
    | .error _, .ok _ => .isFalse (by intro hc; cases hc)
    | .ok _, .error _ => .isFalse (by intro hc; cases hc)

structure InterpStatus where
  current_height : Height
  target_height : Height
deriving DecidableEq, Repr

/-- `InterpreterJob::Result` (head tipset plus interpretation outcome). -/
structure InterpResult where
  head : Option Tipset
  result : Except ECode StateResult
deriving DecidableEq, Repr

structure InterpreterJob where
  active : Bool
  status : InterpStatus
  result : InterpResult
  next_steps : List Tipset
  step_cursor : Nat
deriving DecidableEq, Repr

def InterpreterJob.init : InterpreterJob :=
  { active := false, status := ⟨0, 0⟩, result := ⟨none, .error 1⟩,
    next_steps := [], step_cursor := 0 }

/-- Observable side effects of an InterpreterJob: the terminal callback
scheduled with the result payload, a rescheduled interpretation step, or an
invocation of the external interpreter on a tipset. -/
inductive IEvent where
  | resultScheduled (r : Except ECode StateResult)
  | stepScheduled
  | interpretCalled (ts : Tipset)
deriving DecidableEq, Repr

/-- Oracle view of the InterpreterJob's collaborators. -/
structure InterpEnv where
  getTipsetByKey : TipsetKey → Except ECode Tipset
  getSavedResult : Tipset → Except ECode (Option StateResult)
  setCurrentHead : TipsetHash → Except ECode Unit
  walkBackward : TipsetHash → Height → Except ECode (List Tipset)

/-- `InterpreterJob::scheduleResult`: deactivates the job, clears the step
queue and schedules the terminal callback carrying the current result. -/
def InterpreterJob.scheduleResult (s : InterpreterJob) : InterpreterJob × List IEvent :=
  ({ s with active := false, next_steps := [], step_cursor := 0 },
   [.resultScheduled s.result.result])

/-- The callback fold of the `walkBackward` call inside
`InterpreterJob::start`: stops at the first error from the memo probe or at
the highest tipset with a saved result (recording its height). -/
def walkBackFold (env : InterpEnv) : List Tipset → InterpreterJob →
    Option ECode × InterpreterJob
  | [], s => (none, s)
  | ts :: rest, s =>
    match env.getSavedResult ts with
    | .error e => (some e, s)
    | .ok (some _) =>
      (none, { s with status := { s.status with current_height := ts.height } })
    | .ok none => walkBackFold env rest s

/-- `InterpreterJob::start`. -/
def InterpreterJob.start (env : InterpEnv) (s : InterpreterJob) (head : TipsetKey) :
    Except ECode Unit × InterpreterJob × List IEvent :=
  let s0 := if s.active then { s with active := false } else s
  match env.getTipsetByKey head with
  | .error e => (.error e, s0, [])
  | .ok ts =>
    let s1 : InterpreterJob :=
      { s0 with result := { s0.result with head := some ts },
                status := { s0.status with target_height := ts.height } }
    match env.getSavedResult ts with
    | .error e => (.error e, s1, [])
    | .ok (some r) =>
      let s2 : InterpreterJob :=
        { s1 with result := { s1.result with result := .ok r },
                  status := { s1.status with current_height := s1.status.target_height } }
      let sr := s2.scheduleResult
      (.ok (), sr.1, sr.2)
    | .ok none =>
      match env.setCurrentHead ts.hash with
      | .error e => (.error e, s1, [])
      | .ok _ =>
        match env.walkBackward ts.hash 0 with
        | .error e => (.error e, s1, [])
        | .ok walked =>
          let wf := walkBackFold env walked s1
          match wf.1 with
          | some e => (.error e, wf.2, [])
          | none => (.ok (), { wf.2 with active := true }, [.stepScheduled])

/-! Basic lemmas about the ordered-map and sorted-set operations. -/

theorem omFind_omSet_self {α : Type} (k : Nat) (v : α) (m : List (Nat × α)) :
    omFind (omSet k v m) k = some v := by
  induction m with
  | nil => simp [omSet, omFind]
  | cons hd tl ih =>
    obtain ⟨k1, v1⟩ := hd
    by_cases h : k = k1
    · simp [omSet, h, omFind]
    · by_cases h2 : k < k1
      · simp [omSet, h, h2, omFind]
      · simp [omSet, h, h2, omFind, ih]

theorem omFind_omSet_ne {α : Type} {k k1 : Nat} (v : α) (m : List (Nat × α))
    (h : k1 ≠ k) : omFind (omSet k v m) k1 = omFind m k1 := by
  induction m with
  | nil => simp [omSet, omFind, h]
  | cons hd tl ih =>
    obtain ⟨k2, v2⟩ := hd
    by_cases he : k = k2
    · subst he
      simp [omSet, omFind, h]
    · by_cases h2 : k < k2
      · simp [omSet, he, h2, omFind, h]
      · by_cases h3 : k1 = k2 <;> simp [omSet, he, h2, omFind, h3, ih]

theorem omFind_omErase_ne {α : Type} {k k1 : Nat} (m : List (Nat × α))
    (h : k1 ≠ k) : omFind (omErase k m) k1 = omFind m k1 := by
  induction m with
  | nil => simp [omErase]
  | cons hd tl ih =>
    obtain ⟨k2, v2⟩ := hd
    by_cases he : k = k2
    · subst he
      simp [omErase, omFind, h]
    · by_cases h3 : k1 = k2 <;> simp [omErase, he, omFind, h3, ih]

theorem omFind_mem {α : Type} {m : List (Nat × α)} {k : Nat} {v : α}
    (h : omFind m k = some v) : (k, v) ∈ m := by
  induction m with
  | nil => simp [omFind] at h
  | cons hd tl ih =>
    obtain ⟨k1, v1⟩ := hd
    by_cases he : k = k1
    · subst he
      simp [omFind] at h
      simp [h]
    · simp [omFind, he] at h
      simp [ih h]

theorem mem_omSet {α : Type} {m : List (Nat × α)} {k : Nat} {v : α} {kv : Nat × α}
    (h : kv ∈ omSet k v m) : kv = (k, v) ∨ kv ∈ m := by
  induction m with
  | nil => simpa [omSet] using h
  | cons hd tl ih =>
    obtain ⟨k1, v1⟩ := hd
    by_cases he : k = k1
    · subst he
      rw [show omSet k v ((k, v1) :: tl) = (k, v) :: tl by simp [omSet]] at h
      rcases List.mem_cons.mp h with h | h
      · exact Or.inl h
      · exact Or.inr (List.mem_cons_of_mem _ h)
    · by_cases h2 : k < k1
      · rw [show omSet k v ((k1, v1) :: tl) = (k, v) :: (k1, v1) :: tl by
              simp [omSet, he, h2]] at h
        rcases List.mem_cons.mp h with h | h
        · exact Or.inl h
        · exact Or.inr h
      · rw [show omSet k v ((k1, v1) :: tl) = (k1, v1) :: omSet k v tl by
              simp [omSet, he, h2]] at h
        rcases List.mem_cons.mp h with h | h
        · exact Or.inr (List.mem_cons.mpr (Or.inl h))
        · rcases ih h with h3 | h3
          · exact Or.inl h3
          · exact Or.inr (List.mem_cons_of_mem _ h3)

theorem omSet_ne_nil {α : Type} (k : Nat) (v : α) (m : List (Nat × α)) :
    omSet k v m ≠ [] := by
  cases m with
  | nil => simp [omSet]
  | cons hd tl =>
    obtain ⟨k1, v1⟩ := hd
    by_cases he : k = k1
    · simp [omSet, he]
    · by_cases h2 : k < k1 <;> simp [omSet, he, h2]

theorem mem_setInsert {x y : Nat} {s : List Nat} :
    x ∈ setInsert y s ↔ x = y ∨ x ∈ s := by
  induction s with
  | nil => simp [setInsert]
  | cons hd tl ih =>
    by_cases h1 : y < hd
    · rw [show setInsert y (hd :: tl) = y :: hd :: tl by simp [setInsert, h1]]
      simp only [List.mem_cons]
    · by_cases h2 : y = hd
      · rw [show setInsert y (hd :: tl) = hd :: tl by simp [setInsert, h1, h2]]
        subst h2
        simp only [List.mem_cons]
        tauto
      · rw [show setInsert y (hd :: tl) = hd :: setInsert y tl by simp [setInsert, h1, h2]]
        simp only [List.mem_cons, ih]
        tauto

/-! Claim C1: the `current_chain` produced by `switchToHead`. -/

/-- Example branch for C1: id 1, parent 0 (root), heights 10..20. -/
def c1Branch : Branch := ⟨1, 0, 100, 20, 101, 10, []⟩

/-- Graph loaded from the single branch `c1Branch`. -/
def c1Graph : Graph := (Graph.load [c1Branch]).2

/-- C1: the claim says a successful `switchToHead(h)` leaves `current_chain`
with entry `(top_height → branch id)` for each branch on the path, and that
`findByHeight(k)` then returns a branch whose height interval contains `k`.
The code instead executes `current_chain_[top_height] = current_chain_[id]`,
a self-referential read on a freshly cleared map: on the single-branch graph
(branch 1, heights 10..20) the resulting chain is `[(1, 0), (20, 0)]` — a
spurious key `1` and value `0` instead of branch id `1` — and
`findByHeight 15` returns branch id `0`, which is not even a branch of the
graph (its interval certainly does not contain 15).  The spec's design
notes flag exactly this line as a defect, so the claim describes the
intent and the code is the slip. -/
theorem c1_switchToHead_chain_bug :
    (Graph.load [c1Branch]).1 = .ok () ∧
    (c1Graph.switchToHead 1).1 = .ok () ∧
    (c1Graph.switchToHead 1).2.current_chain = [(1, 0), (20, 0)] ∧
    Graph.findByHeight (c1Graph.switchToHead 1).2 15 = .ok 0 ∧
    omFind c1Graph.all_branches 0 = none ∧
    c1Branch.bottom_height = 10 ∧ c1Branch.top_height = 20 := by decide

/-! Claim C5: tie-breaking in `Syncer::chooseNextTarget`. -/

/-- Syncer state for C5: floor (weight 0, height 0); two pending targets of
equal weight 5, peer 1 at height 10 and peer 2 at height 3. -/
def c5Syncer : Syncer :=
  { started := true, current_job := none,
    pending_targets := [(1, ⟨100, 5, 10⟩), (2, ⟨200, 5, 3⟩)],
    current_weight := 0, current_height := 0,
    last_good_peer := none, probable_height := 0 }

/-- C5: the claim says that among pending targets of equal greatest weight
`chooseNextTarget` returns the one with the greater height.  On `c5Syncer`
both targets are above the floor and share the maximal weight 5, and the
claim picks peer 1 (height 10); the code's tie branch compares and assigns
against `current_height_` instead of the candidate's height, so it returns
peer 2's target of height 3.  The spec's design notes call this tie-break
line a defect, so the claim is the intent and the code is the slip. -/
theorem c5_chooseNextTarget_tiebreak_bug :
    c5Syncer.chooseNextTarget.1 = some (2, ⟨200, 5, 3⟩) ∧
    (1, (⟨100, 5, 10⟩ : Target)) ∈ c5Syncer.pending_targets ∧
    (⟨100, 5, 10⟩ : Target).weight = (⟨200, 5, 3⟩ : Target).weight ∧
    (⟨200, 5, 3⟩ : Target).height < (⟨100, 5, 10⟩ : Target).height ∧
    c5Syncer.current_weight < (⟨100, 5, 10⟩ : Target).weight := by decide

/-! Claim C7: stale tipset deliveries are dropped by `SyncJob::onTipsetLoaded`. -/

/-- C7: a delivery whose hash differs from `status_.next`, or arriving while
`next` is unset or the status code is not `IN_PROGRESS`, leaves the job state
unchanged, fires no callback and issues no load request. -/
theorem c7_onTipsetLoaded_stale_noop (env : SyncEnv) (s : SyncJobState)
    (hash : TipsetHash) (result : Except ECode Tipset)
    (h : s.status.code ≠ .IN_PROGRESS ∨ s.status.next = none ∨
         s.status.next ≠ some hash) :
    SyncJob.onTipsetLoaded env s hash result = (s, []) := by
  unfold SyncJob.onTipsetLoaded
  rcases h with h | h | h
  · simp [h]
  · by_cases hc : s.status.code ≠ StatusCode.IN_PROGRESS
    · simp [hc]
    · simp [hc, h]
  · by_cases hc : s.status.code ≠ StatusCode.IN_PROGRESS
    · simp [hc]
    · cases hn : s.status.next with
      | none => simp [hc, hn]
      | some n =>
        rw [hn] at h
        have : hash ≠ n := fun he => h (by rw [he])
        simp [hc, hn, this]

/-- Environment used by the sync-claim witnesses. -/
def cWitnessEnv : SyncEnv :=
  { tipsetIsStored := fun _ => false,
    getUnsyncedBottom := fun _ => .ok none,
    storeTipset := fun _ _ => .ok none,
    loadTipsetAsync := fun _ _ _ => .ok () }

/-- Job state awaiting tipset `5`. -/
def c7Job : SyncJobState :=
  { active := true,
    status := { SyncStatus.init with code := .IN_PROGRESS, next := some 5 } }

/-- Witness for C7: delivering tipset `9` while the job expects `5` changes
nothing and emits no events. -/
theorem c7_onTipsetLoaded_stale_noop_witness :
    SyncJob.onTipsetLoaded cWitnessEnv c7Job 9 (.ok ⟨9, 8, 3⟩) = (c7Job, []) :=
  c7_onTipsetLoaded_stale_noop cWitnessEnv c7Job 9 (.ok ⟨9, 8, 3⟩)
    (Or.inr (Or.inr (by decide)))

/-! Claim C10: `SyncJob::start` on an already active job. -/

/-- C10: starting an already active SyncJob returns immediately: the whole
job state (all status fields included) is unchanged, no load request is
issued, no callback is fired and no error is reported. -/
theorem c10_start_active_noop (env : SyncEnv) (s : SyncJobState) (peer : PeerId)
    (head : TipsetKey) (probable_depth : Nat) (h : s.active = true) :
    SyncJob.start env s peer head probable_depth = (s, []) := by
  unfold SyncJob.start
  simp [h]

/-- Witness for C10: starting the active job `c7Job` with fresh arguments
changes nothing. -/
theorem c10_start_active_noop_witness :
    SyncJob.start cWitnessEnv c7Job 1 42 7 = (c7Job, []) :=
  c10_start_active_noop cWitnessEnv c7Job 1 42 7 (by decide)

/-! Claim C8: memoized head in `InterpreterJob::start`. -/

/-- C8: when the head tipset already has a saved interpretation result,
`InterpreterJob::start` sets `current_height` to `target_height`, schedules
exactly one terminal callback carrying the cached result, never invokes the
interpreter, and returns success. -/
theorem c8_interpreter_memo_hit (env : InterpEnv) (s : InterpreterJob)
    (head : TipsetKey) (ts : Tipset) (r : StateResult)
    (h1 : env.getTipsetByKey head = .ok ts)
    (h2 : env.getSavedResult ts = .ok (some r)) :
    (InterpreterJob.start env s head).1 = .ok () ∧
    (InterpreterJob.start env s head).2.1.status.current_height
      = (InterpreterJob.start env s head).2.1.status.target_height ∧
    (InterpreterJob.start env s head).2.1.status.target_height = ts.height ∧
    (InterpreterJob.start env s head).2.2 = [.resultScheduled (.ok r)] ∧
    (∀ t : Tipset, IEvent.interpretCalled t ∉ (InterpreterJob.start env s head).2.2) ∧
    (InterpreterJob.start env s head).2.1.result.result = .ok r := by
  unfold InterpreterJob.start
  simp [h1, h2, InterpreterJob.scheduleResult]

/-- Memo environment for the C8 witness: every tipset lookup succeeds at
height 50 and the memo store answers result 77. -/
def c8Env : InterpEnv :=
  { getTipsetByKey := fun k => .ok ⟨k, 0, 50⟩,
    getSavedResult := fun _ => .ok (some 77),
    setCurrentHead := fun _ => .ok (),
    walkBackward := fun _ _ => .ok [] }

/-- Witness for C8 at head `9` on a fresh job: success, the height fields
agree, and the single scheduled event carries the cached result 77. -/
theorem c8_interpreter_memo_hit_witness :
    (InterpreterJob.start c8Env InterpreterJob.init 9).1 = .ok () ∧
    (InterpreterJob.start c8Env InterpreterJob.init 9).2.2
      = [.resultScheduled (.ok 77)] :=
  ⟨(c8_interpreter_memo_hit c8Env InterpreterJob.init 9 ⟨9, 0, 50⟩ 77 rfl rfl).1,
   (c8_interpreter_memo_hit c8Env InterpreterJob.init 9 ⟨9, 0, 50⟩ 77 rfl rfl).2.2.2.1⟩

/-! Claim C6: target admission in `Syncer::newTarget`. -/

/-- Any `SyncJob::start` call on an inactive job activates it and records the
peer and head in the status, whatever the environment answers. -/
theorem syncjob_start_sets_target (env : SyncEnv) (s : SyncJobState) (peer : PeerId)
    (head : TipsetKey) (depth : Nat) (h : s.active = false) :
    (SyncJob.start env s peer head depth).1.active = true ∧
    (SyncJob.start env s peer head depth).1.status.peer = some peer ∧
    (SyncJob.start env s peer head depth).1.status.head = some head := by
  unfold SyncJob.start
  rw [h]
  simp only [Bool.false_eq_true, if_false]
  by_cases hst : env.tipsetIsStored head
  · simp only [hst, not_true, if_false]
    cases hub : env.getUnsyncedBottom head with
    | error e => simp [SyncJob.internalError]
    | ok mb =>
      cases mb with
      | none => simp [SyncJob.nextTarget]
      | some ts =>
        simp only [SyncJob.nextTarget]
        cases hl : env.loadTipsetAsync ts.parents (some peer) (heightPred ts.height) with
        | ok u => simp [hl]
        | error e => simp [hl, SyncJob.internalError]
  · simp only [hst, not_false_iff, if_true]
    cases hl : env.loadTipsetAsync head (some peer) depth with
    | ok u => simp [hl]
    | error e => simp [hl, SyncJob.internalError]

/-- C6: `newTarget` rejects (with no state change and no effects) exactly
those targets with both weight and height below the local floor; with no
peer given it substitutes `last_good_peer` and is a no-op when there is
none; when the syncer is started and no job is active it starts a job for
the target immediately, and otherwise it records the target in
`pending_targets` under the peer. -/
theorem c6_newTarget_spec (env : SyncEnv) (s : Syncer) (peer : Option PeerId)
    (head : TipsetKey) (weight : Nat) (height : Height) :
    (weight < s.current_weight ∧ height < s.current_height →
       Syncer.newTarget env s peer head weight height = (s, [])) ∧
    (peer = none → s.last_good_peer = none →
       Syncer.newTarget env s peer head weight height = (s, [])) ∧
    (∀ p, peer = none → s.last_good_peer = some p →
       Syncer.newTarget env s peer head weight height
         = Syncer.newTarget env s (some p) head weight height) ∧
    (∀ p, peer = some p →
       ¬ (weight < s.current_weight ∧ height < s.current_height) →
       s.started = true → s.isActive = false →
       (Syncer.newTarget env s peer head weight height).1.pending_targets
           = s.pending_targets ∧
       ∃ j, (Syncer.newTarget env s peer head weight height).1.current_job = some j ∧
            j.active = true ∧ j.status.peer = some p ∧ j.status.head = some head) ∧
    (∀ p, peer = some p →
       ¬ (weight < s.current_weight ∧ height < s.current_height) →
       ¬ (s.started = true ∧ s.isActive = false) →
       Syncer.newTarget env s peer head weight height
         = ({ s with pending_targets :=
                upsert p ⟨head, weight, height⟩ s.pending_targets }, [])) := by
  refine ⟨?_, ?_, ?_, ?_, ?_⟩
  · intro h
    unfold Syncer.newTarget
    simp [h]
  · intro hp hl
    unfold Syncer.newTarget
    by_cases h : weight < s.current_weight ∧ height < s.current_height
    · simp [h]
    · simp [h, hp, hl]
  · intro p hp hl
    unfold Syncer.newTarget
    by_cases h : weight < s.current_weight ∧ height < s.current_height
    · simp [h]
    · simp [h, hp, hl]
  · intro p hp hrej hstart hact
    subst hp
    have hjob : (s.current_job.getD SyncJobState.init).active = false := by
      cases hcj : s.current_job with
      | none => simp [SyncJobState.init]
      | some j =>
        have := hact
        unfold Syncer.isActive at this
        rw [hstart, hcj] at this
        simpa using this
    unfold Syncer.newTarget
    simp only [hrej, if_false, hstart, hact]
    simp only [true_and, if_true]
    unfold Syncer.startJob
    constructor
    · rfl
    · exact ⟨_, rfl,
        (syncjob_start_sets_target env _ p head _ hjob).1,
        (syncjob_start_sets_target env _ p head _ hjob).2.1,
        (syncjob_start_sets_target env _ p head _ hjob).2.2⟩
  · intro p hp hrej hnostart
    subst hp
    unfold Syncer.newTarget
    simp [hrej, hnostart]

/-- Syncer state for the C6 witness: started, no job, local floor weight 10
and height 10. -/
def c6Syncer : Syncer :=
  { started := true, current_job := none, pending_targets := [],
    current_weight := 10, current_height := 10,
    last_good_peer := none, probable_height := 0 }

/-- Witness for C6: a target strictly below the floor in both coordinates is
rejected with no state change, and a target above the floor on the started
idle syncer starts a job whose status records peer 3 and head 42. -/
theorem c6_newTarget_spec_witness :
    Syncer.newTarget cWitnessEnv c6Syncer (some 3) 41 5 5 = (c6Syncer, []) ∧
    ∃ j, (Syncer.newTarget cWitnessEnv c6Syncer (some 3) 42 20 20).1.current_job
           = some j ∧ j.active = true ∧ j.status.peer = some 3 ∧
         j.status.head = some 42 :=
  ⟨(c6_newTarget_spec cWitnessEnv c6Syncer (some 3) 41 5 5).1 (by decide),
   ((c6_newTarget_spec cWitnessEnv c6Syncer (some 3) 42 20 20).2.2.2.1 3 rfl
      (by decide) (by decide) (by decide)).2⟩

/-! Claim C3: graph mutators and error returns. -/

/-- Cyclic graph for the C3 counterexample: branches 1 and 2 point at each
other as parents, 1 is registered as a head, and a non-empty current chain
is in place. -/
def c3CycGraph : Graph :=
  { all_branches := [(1, ⟨1, 2, 100, 10, 101, 5, []⟩),
                     (2, ⟨2, 1, 200, 20, 201, 15, [1]⟩)],
    roots := [], heads := [1],
    current_chain := [(5, 3)], current_chain_bottom_height := 7 }

/-- Counterexample for C3: `switchToHead` on the cyclic graph returns
`CYCLE_DETECTED`, yet the graph is not what it was before the call — the
walk cleared `current_chain`, which held `[(5, 3)]`. -/
theorem c3_error_frame_counterexample :
    (c3CycGraph.switchToHead 1).1 = .err .CYCLE_DETECTED ∧
    (c3CycGraph.switchToHead 1).2 ≠ c3CycGraph ∧
    c3CycGraph.current_chain = [(5, 3)] ∧
    (c3CycGraph.switchToHead 1).2.current_chain = [] := by decide

/-- `Graph::merge` never returns an error code (only success or a failed
assertion). -/
theorem mergeStep_not_err (e : GError) (ab : List (BranchId × Branch)) (b : Branch) :
    (Graph.mergeStep ab b).1 ≠ Res.err e := by
  unfold Graph.mergeStep
  split
  · simp
  · split
    · simp
    · split
      · dsimp only
        split
        · simp
        · simp
      · simp

/-- C3 as amended: every graph mutator other than `load` leaves the graph
exactly as it was whenever it returns an error — except `switchToHead`
returning `CYCLE_DETECTED`, which leaves all other state intact but leaves
`current_chain` cleared rather than as it was before the call. -/
theorem c3_error_frame_amended :
    (∀ (g : Graph) (h : BranchId) (e : GError),
       (Graph.switchToHead g h).1 = .err e →
       (e = .BRANCH_IS_NOT_A_HEAD ∧ (Graph.switchToHead g h).2 = g) ∨
       (e = .CYCLE_DETECTED ∧
        (Graph.switchToHead g h).2 = { g with current_chain := [] })) ∧
    (∀ (g : Graph) (h : BranchId) (e : GError),
       (Graph.removeHead g h).1 = .err e → (Graph.removeHead g h).2 = g) ∧
    (∀ (g : Graph) (b s : BranchId) (e : GError),
       (Graph.linkToHead g b s).1 = .err e → (Graph.linkToHead g b s).2 = g) ∧
    (∀ (g : Graph) (b s : BranchId) (pt : TipsetHash) (ph : Height) (e : GError),
       (Graph.linkBranches g b s pt ph).1 = .err e →
       (Graph.linkBranches g b s pt ph).2 = g) := by
  refine ⟨?_, ?_, ?_, ?_⟩
  · intro g h e
    simp only [Graph.switchToHead]
    split
    · intro hx
      simp at hx
    · split
      · intro hx
        simp only [Prod.fst] at hx
        cases hx
        exact Or.inl ⟨rfl, rfl⟩
      · split
        · intro hx
          simp only [Prod.fst] at hx
          cases hx
          exact Or.inr ⟨rfl, rfl⟩
        · intro hx
          simp at hx
        · split
          · intro hx
            simp at hx
          · intro hx
            simp at hx
  · intro g h e
    simp only [Graph.removeHead]
    split
    · intro _
      rfl
    · split
      · intro hx
        simp at hx
      · split
        · intro hx
          simp at hx
        · split
          · intro hx
            simp at hx
          · split
            · intro hx
              simp at hx
            · intro hx
              exact absurd hx (mergeStep_not_err e _ _)
  · intro g b s e
    simp only [Graph.linkToHead]
    split
    · intro _
      rfl
    · split
      · intro _
        rfl
      · split
        · intro _
          rfl
        · split
          · intro _
            rfl
          · split
            · intro _
              rfl
            · split
              · intro hx
                simp at hx
              · intro hx
                simp at hx
  · intro g b s pt ph e
    simp only [Graph.linkBranches]
    split
    · intro _
      rfl
    · split
      · intro _
        rfl
      · intro hx
        simp at hx

/-- Graph for the C3 witness: a single root-and-head branch 7. -/
def c3WitGraph : Graph :=
  { all_branches := [(7, ⟨7, 0, 700, 9, 701, 3, []⟩)],
    roots := [7], heads := [7],
    current_chain := [(9, 7)], current_chain_bottom_height := 3 }

/-- Witness for C3 (amended): `linkToHead` with a successor that is not a
root fails with `BRANCH_IS_NOT_A_ROOT` and leaves the graph unchanged. -/
theorem c3_error_frame_witness :
    Graph.linkToHead c3WitGraph 7 1 = (.err .BRANCH_IS_NOT_A_ROOT, c3WitGraph) ∧
    (Graph.linkToHead c3WitGraph 7 1).2 = c3WitGraph :=
  ⟨by decide,
   c3_error_frame_amended.2.2.1 c3WitGraph 7 1 .BRANCH_IS_NOT_A_ROOT (by decide)⟩

/-! Claim C2: `removeHead` and the merge of a single remaining fork. -/

/-- C2 example branch B1: 10..20, root. -/
def c2B1 : Branch := ⟨1, 0, 100, 20, 101, 10, [2]⟩

/-- C2 example branch B2: 21..30, parent B1, forks B3 and B4. -/
def c2B2 : Branch := ⟨2, 1, 200, 30, 201, 21, [3, 4]⟩

/-- C2 example branch B3: 31..40, parent B2. -/
def c2B3 : Branch := ⟨3, 2, 300, 40, 301, 31, []⟩

/-- C2 example branch B4: 25..27, parent B2. -/
def c2B4 : Branch := ⟨4, 2, 400, 27, 401, 25, []⟩

/-- The C2 example graph. -/
def c2Graph : Graph :=
  { all_branches := [(1, c2B1), (2, c2B2), (3, c2B3), (4, c2B4)],
    roots := [1], heads := [3, 4],
    current_chain := [], current_chain_bottom_height := 0 }

/-- Counterexample for C2: on the example graph the premises of the claim
hold (B3 is a head, its parent B2 is left with the single fork B4), but
`removeHead(B3)` returns `(B1, B4)` — the first component is the collapsed
parent's own parent (the grandparent), not the collapsed parent B2 as the
claim states. -/
theorem c2_removeHead_counterexample :
    3 ∈ c2Graph.heads ∧
    omFind c2Graph.all_branches 3 = some c2B3 ∧ c2B3.parent = 2 ∧
    omFind c2Graph.all_branches 2 = some c2B2 ∧ setErase 3 c2B2.forks = [4] ∧
    (c2Graph.removeHead 3).1 = .ok (1, 4) ∧
    (Res.ok (1, 4) : Res (BranchId × BranchId)) ≠ .ok (2, 4) := by decide

/-- C2 as amended: removing a head whose parent `p` is left with exactly one
fork `s` merges `p` into `s` — `s` adopts `p`'s bottom, bottom height and
parent, and the grandparent's forks set replaces `p` by `s` — and the
returned pair is `(p.parent, s)`: the GRANDPARENT's id and the surviving
successor's id (so the example returns `(B1, B4)`); with no merge the pair
is `(0, 0)`. -/
theorem c2_removeHead_merge_amended :
    (∀ (g : Graph) (head p s : BranchId) (hb pb sb : Branch),
       head ∈ g.heads →
       omFind g.all_branches head = some hb →
       hb.parent = p → p ≠ 0 → p ≠ head → pb.id = p →
       omFind g.all_branches p = some pb →
       setErase head pb.forks = [s] →
       s ≠ head → s ≠ p →
       omFind g.all_branches s = some sb →
       (pb.parent = 0 ∨
        (pb.parent ≠ head ∧ pb.parent ≠ p ∧ pb.parent ≠ s ∧
         omFind g.all_branches pb.parent ≠ none)) →
       (Graph.removeHead g head).1 = .ok (pb.parent, s) ∧
       omFind (Graph.removeHead g head).2.all_branches s
         = some { sb with bottom := pb.bottom, bottom_height := pb.bottom_height,
                          parent := pb.parent } ∧
       (∀ gpb : Branch, pb.parent ≠ 0 → pb.parent ≠ head → pb.parent ≠ p →
          pb.parent ≠ s →
          omFind g.all_branches pb.parent = some gpb →
          omFind (Graph.removeHead g head).2.all_branches pb.parent
            = some { gpb with forks := setInsert s (setErase p gpb.forks) })) ∧
    (∀ (g : Graph) (head : BranchId) (hb : Branch),
       head ∈ g.heads → omFind g.all_branches head = some hb → hb.parent = 0 →
       (Graph.removeHead g head).1 = .ok (0, 0)) ∧
    (∀ (g : Graph) (head : BranchId) (hb pb : Branch),
       head ∈ g.heads → omFind g.all_branches head = some hb →
       hb.parent ≠ 0 → hb.parent ≠ head →
       omFind g.all_branches hb.parent = some pb →
       (setErase head pb.forks).length ≠ 1 →
       (Graph.removeHead g head).1 = .ok (0, 0)) := by
  refine ⟨?_, ?_, ?_⟩
  · intro g head p s hb pb sb hmem hfind hpar hp0 hph hpid hpfind hforks hsh hsp hsfind hgp
    have hnin : ¬ (head ∉ g.heads) := by simpa using hmem
    have e1 : omFind (omErase head g.all_branches) p = some pb := by
      rw [omFind_omErase_ne _ hph]
      exact hpfind
    have e2 : ∀ (v : Branch),
        omFind (omErase p (omSet p v (omErase head g.all_branches))) s = some sb := by
      intro v
      rw [omFind_omErase_ne _ hsp, omFind_omSet_ne _ _ hsp, omFind_omErase_ne _ hsh]
      exact hsfind
    simp only [Graph.removeHead, if_neg hnin, hfind, hpar]
    simp only [hp0, if_false, e1, hforks]
    simp only [Graph.mergeStep, e2]
    simp only [List.length_cons, List.length_nil, ne_eq, not_true, if_false,
      reduceCtorEq, ite_false, ite_true]
    by_cases hgp0 : pb.parent = 0
    · simp only [hgp0, ne_eq, not_true, if_false, reduceCtorEq, ite_false, ite_true,
        not_false_iff]
      refine ⟨by simp, ?_, ?_⟩
      · rw [omFind_omSet_self]
      · intro gpb hne
        simp at hne
    · rcases hgp with hgp | ⟨hgph, hgpp, hgps, hgpfind⟩
      · exact absurd hgp hgp0
      · obtain ⟨gpb0, hgpb0⟩ : ∃ b0, omFind g.all_branches pb.parent = some b0 := by
          cases hx : omFind g.all_branches pb.parent with
          | none => exact absurd hx hgpfind
          | some b0 => exact ⟨b0, rfl⟩
        have e3 : ∀ (v w : Branch),
            omFind (omSet s w (omErase p (omSet p v (omErase head g.all_branches))))
              pb.parent = some gpb0 := by
          intro v w
          rw [omFind_omSet_ne _ _ hgps, omFind_omErase_ne _ hgpp,
            omFind_omSet_ne _ _ hgpp, omFind_omErase_ne _ hgph]
          exact hgpb0
        simp only [hgp0, if_true, e3, ite_not, ite_false, ite_true]
        refine ⟨by simp, ?_, ?_⟩
        · rw [omFind_omSet_ne _ _ (fun he => hgps he.symm), omFind_omSet_self]
        · intro gpb _ _ _ _ hfind2
          have : gpb0 = gpb := by
            rw [hgpb0] at hfind2
            exact Option.some.inj hfind2
          subst this
          rw [omFind_omSet_self, hpid]
  · intro g head hb hmem hfind hpar0
    have hnin : ¬ (head ∉ g.heads) := by simpa using hmem
    simp only [Graph.removeHead, if_neg hnin, hfind, hpar0, if_true, ite_true]
  · intro g head hb pb hmem hfind hp0 hph hpfind hlen
    have hnin : ¬ (head ∉ g.heads) := by simpa using hmem
    have e1 : omFind (omErase head g.all_branches) hb.parent = some pb := by
      rw [omFind_omErase_ne _ hph]
      exact hpfind
    simp only [Graph.removeHead, if_neg hnin, hfind, hp0, if_false, e1]
    rw [if_pos hlen]

/-- Witness for C2 (amended): applying the merge theorem to the example
graph yields the pair `(B1, B4)` and the merged successor record. -/
theorem c2_removeHead_merge_witness :
    (c2Graph.removeHead 3).1 = .ok (c2B2.parent, 4) ∧
    omFind (c2Graph.removeHead 3).2.all_branches 4
      = some { c2B4 with bottom := c2B2.bottom, bottom_height := c2B2.bottom_height,
                         parent := c2B2.parent } :=
  ⟨(c2_removeHead_merge_amended.1 c2Graph 3 2 4 c2B3 c2B2 c2B4 (by decide) (by decide)
      (by decide) (by decide) (by decide) (by decide) (by decide) (by decide)
      (by decide) (by decide) (by decide)
      (Or.inr ⟨by decide, by decide, by decide, by decide⟩)).1,
   (c2_removeHead_merge_amended.1 c2Graph 3 2 4 c2B3 c2B2 c2B4 (by decide) (by decide)
      (by decide) (by decide) (by decide) (by decide) (by decide) (by decide)
      (by decide) (by decide) (by decide)
      (Or.inr ⟨by decide, by decide, by decide, by decide⟩)).2.1⟩

/-! Claim C9: idempotence of `switchToHead`.  The `current_chain` map the
source builds carries only zero values (the self-referential read always
yields the freshly value-initialized `0`), so a second call never takes the
early-exit path for a nonzero head — yet it re-runs the identical walk and
reproduces the very same state. -/

theorem allZero_omSet {chain : List (Height × BranchId)} {k : Height}
    (h : ∀ kv ∈ chain, kv.2 = 0) : ∀ kv ∈ omSet k 0 chain, kv.2 = 0 := by
  intro kv hm
  rcases mem_omSet hm with hv | hv
  · rw [hv]
  · exact h kv hv

theorem allZero_omGetOrInsert {chain : List (Height × BranchId)} {k : Height}
    (h : ∀ kv ∈ chain, kv.2 = 0) :
    (omGetOrInsert chain k 0).1 = 0 ∧
    ∀ kv ∈ (omGetOrInsert chain k 0).2, kv.2 = 0 := by
  unfold omGetOrInsert
  cases hf : omFind chain k with
  | some v => exact ⟨h (k, v) (omFind_mem hf), h⟩
  | none => exact ⟨rfl, allZero_omSet h⟩

/-- One clean unfolding step of the `switchToHead` walk: the nested fuel
match collapses into a single `fuel ≤ 1` guard. -/
theorem switchLoop_eq (ab : List (BranchId × Branch)) (fuel : Nat) (curr : BranchId)
    (chain : List (Height × BranchId)) :
    switchLoop ab fuel curr chain =
      match omFind ab curr with
      | none => .stuck
      | some b =>
        if b.parent = 0 then
          .done (omSet b.top_height (omGetOrInsert chain b.id 0).1
                   (omGetOrInsert chain b.id 0).2)
        else if fuel ≤ 1 then .cycle
        else switchLoop ab (fuel - 1) b.parent
               (omSet b.top_height (omGetOrInsert chain b.id 0).1
                  (omGetOrInsert chain b.id 0).2) := by
  cases fuel with
  | zero =>
    rw [switchLoop]
    cases hf : omFind ab curr with
    | none => rfl
    | some b =>
      simp only
      by_cases hp : b.parent = 0
      · rw [if_pos hp, if_pos hp]
      · rw [if_neg hp, if_neg hp, if_pos (by omega : (0 : Nat) ≤ 1)]
  | succ f =>
    rw [switchLoop]
    cases hf : omFind ab curr with
    | none => rfl
    | some b =>
      simp only
      by_cases hp : b.parent = 0
      · rw [if_pos hp, if_pos hp]
      · rw [if_neg hp, if_neg hp]
        by_cases h0 : f = 0
        · rw [if_pos h0, if_pos (show f + 1 ≤ 1 by omega)]
        · rw [if_neg h0, if_neg (show ¬ f + 1 ≤ 1 by omega)]
          simp only [Nat.add_sub_cancel]

/-- Every value of a chain produced by the `switchToHead` walk is `0`. -/
theorem switchLoop_done_values (ab : List (BranchId × Branch)) :
    ∀ (fuel : Nat) (curr : BranchId) (chain c : List (Height × BranchId)),
      (∀ kv ∈ chain, kv.2 = 0) → switchLoop ab fuel curr chain = .done c →
      ∀ kv ∈ c, kv.2 = 0 := by
  intro fuel
  induction fuel using Nat.strong_induction_on with
  | _ fuel ih =>
    intro curr chain c hz hw
    rw [switchLoop_eq] at hw
    cases hf : omFind ab curr with
    | none =>
      simp only [hf] at hw
      cases hw
    | some b =>
      simp only [hf] at hw
      have hz0 := (allZero_omGetOrInsert (k := b.id) hz).1
      rw [hz0] at hw
      have hz2 : ∀ kv ∈ omSet b.top_height 0 (omGetOrInsert chain b.id 0).2, kv.2 = 0 :=
        allZero_omSet (allZero_omGetOrInsert (k := b.id) hz).2
      by_cases hp : b.parent = 0
      · rw [if_pos hp] at hw
        cases hw
        exact hz2
      · rw [if_neg hp] at hw
        by_cases h1 : fuel ≤ 1
        · rw [if_pos h1] at hw
          cases hw
        · rw [if_neg h1] at hw
          exact ih (fuel - 1) (by omega) b.parent _ c hz2 hw

/-- The `switchToHead` walk never produces an empty chain. -/
theorem switchLoop_done_ne_nil (ab : List (BranchId × Branch)) :
    ∀ (fuel : Nat) (curr : BranchId) (chain c : List (Height × BranchId)),
      switchLoop ab fuel curr chain = .done c → c ≠ [] := by
  intro fuel
  induction fuel using Nat.strong_induction_on with
  | _ fuel ih =>
    intro curr chain c hw
    rw [switchLoop_eq] at hw
    cases hf : omFind ab curr with
    | none =>
      simp only [hf] at hw
      cases hw
    | some b =>
      simp only [hf] at hw
      by_cases hp : b.parent = 0
      · rw [if_pos hp] at hw
        cases hw
        exact omSet_ne_nil _ _ _
      · rw [if_neg hp] at hw
        by_cases h1 : fuel ≤ 1
        · rw [if_pos h1] at hw
          cases hw
        · rw [if_neg h1] at hw
          exact ih (fuel - 1) (by omega) b.parent _ c hw

/-- A terminating `switchToHead` walk is insensitive to extra fuel. -/
theorem switchLoop_fuel_mono (ab : List (BranchId × Branch)) :
    ∀ (fuel fuel2 : Nat) (curr : BranchId) (chain c : List (Height × BranchId)),
      switchLoop ab fuel curr chain = .done c → fuel ≤ fuel2 →
      switchLoop ab fuel2 curr chain = .done c := by
  intro fuel
  induction fuel using Nat.strong_induction_on with
  | _ fuel ih =>
    intro fuel2 curr chain c hw hle
    rw [switchLoop_eq] at hw
    rw [switchLoop_eq]
    cases hf : omFind ab curr with
    | none =>
      simp only [hf] at hw
      cases hw
    | some b =>
      simp only [hf] at hw ⊢
      by_cases hp : b.parent = 0
      · rw [if_pos hp] at hw ⊢
        exact hw
      · rw [if_neg hp] at hw ⊢
        by_cases h1 : fuel ≤ 1
        · rw [if_pos h1] at hw
          cases hw
        · rw [if_neg h1] at hw
          rw [if_neg (show ¬ fuel2 ≤ 1 by omega)]
          exact ih (fuel - 1) (by omega) (fuel2 - 1) b.parent _ c hw (by omega)

/-- The `switchToHead` walk from a nonzero head only consults nonzero branch
ids, so it is unchanged by maps that agree outside key `0`. -/
theorem switchLoop_congr (ab ab2 : List (BranchId × Branch))
    (hagree : ∀ k, k ≠ 0 → omFind ab2 k = omFind ab k) :
    ∀ (fuel : Nat) (curr : BranchId) (chain : List (Height × BranchId)),
      curr ≠ 0 → switchLoop ab fuel curr chain = switchLoop ab2 fuel curr chain := by
  intro fuel
  induction fuel using Nat.strong_induction_on with
  | _ fuel ih =>
    intro curr chain hc
    rw [switchLoop_eq, switchLoop_eq ab2]
    rw [hagree curr hc]
    cases hf : omFind ab curr with
    | none => rfl
    | some b =>
      simp only []
      by_cases hp : b.parent = 0
      · rw [if_pos hp, if_pos hp]
      · rw [if_neg hp, if_neg hp]
        by_cases h1 : fuel ≤ 1
        · rw [if_pos h1, if_pos h1]
        · rw [if_neg h1, if_neg h1]
          exact ih (fuel - 1) (by omega) b.parent _ hp

theorem getLast_map_snd_zero {c : List (Height × BranchId)} (hne : c ≠ [])
    (hz : ∀ kv ∈ c, kv.2 = 0) : c.getLast?.map Prod.snd = some 0 := by
  rw [List.getLast?_eq_getLast_of_ne_nil hne]
  simp [hz _ (List.getLast_mem hne)]

theorem omSet_length_of_find_none {α : Type} {m : List (Nat × α)} {k : Nat} (v : α)
    (h : omFind m k = none) : (omSet k v m).length = m.length + 1 := by
  induction m with
  | nil => simp [omSet]
  | cons hd tl ih =>
    obtain ⟨k1, v1⟩ := hd
    by_cases he : k = k1
    · rw [he] at h
      simp [omFind] at h
    · simp only [omFind, if_neg he] at h
      by_cases h2 : k < k1
      · simp [omSet, he, h2]
      · simp [omSet, he, h2, ih h]

/-- C9: a second `switchToHead(h)` immediately after a successful one
returns success and reproduces exactly the same observable state.  (The
source's early-exit test never fires for a nonzero head, because the buggy
chain holds only zero values; the second call simply re-runs the identical
walk and rebuilds the same state, so idempotence holds regardless.) -/
theorem c9_switchToHead_idempotent (g g1 : Graph) (head : BranchId)
    (hc : Graph.switchToHead g head = (.ok (), g1)) :
    Graph.switchToHead g1 head = (.ok (), g1) := by
  unfold Graph.switchToHead at hc
  by_cases h1 : (g.current_chain.getLast?.map Prod.snd) = some head
  · rw [if_pos h1] at hc
    obtain ⟨-, hg⟩ := Prod.mk.inj hc
    subst hg
    unfold Graph.switchToHead
    rw [if_pos h1]
  · rw [if_neg h1] at hc
    by_cases h2 : head ∉ g.heads
    · rw [if_pos h2] at hc
      cases (Prod.mk.inj hc).1
    · rw [if_neg h2] at hc
      cases hw : switchLoop g.all_branches (g.all_branches.length + 1) head [] with
      | cycle =>
        simp only [hw] at hc
        cases (Prod.mk.inj hc).1
      | stuck =>
        simp only [hw] at hc
        cases (Prod.mk.inj hc).1
      | done chain =>
        simp only [hw] at hc
        cases chain with
        | nil => exact absurd rfl (switchLoop_done_ne_nil _ _ _ _ _ hw)
        | cons kv0 tl =>
          obtain ⟨k0, v0⟩ := kv0
          simp only [] at hc
          have hzero : ∀ kv ∈ (k0, v0) :: tl, kv.2 = 0 :=
            switchLoop_done_values g.all_branches (g.all_branches.length + 1) head []
              _ (by simp) hw
          have hv0 : v0 = 0 := hzero (k0, v0) (List.mem_cons_self _ _)
          subst hv0
          have hg1 := (Prod.mk.inj hc).2
          subst hg1
          have hlast : (((k0, 0) :: tl).getLast?.map Prod.snd) = some 0 :=
            getLast_map_snd_zero (by simp) hzero
          by_cases hh0 : head = 0
          · subst hh0
            unfold Graph.switchToHead
            rw [if_pos hlast]
          · unfold Graph.switchToHead
            rw [if_neg (by rw [hlast]; simp [hh0, Ne.symm hh0])]
            rw [if_neg h2]
            cases hfind0 : omFind g.all_branches 0 with
            | some b0 =>
              have e1 : omGetOrInsert g.all_branches 0 Branch.mkDefault
                  = (b0, g.all_branches) := by
                unfold omGetOrInsert
                rw [hfind0]
              simp only [e1, hw]
            | none =>
              have e1 : omGetOrInsert g.all_branches 0 Branch.mkDefault
                  = (Branch.mkDefault, omSet 0 Branch.mkDefault g.all_branches) := by
                unfold omGetOrInsert
                rw [hfind0]
              have hlen : (omSet 0 Branch.mkDefault g.all_branches).length
                  = g.all_branches.length + 1 :=
                omSet_length_of_find_none _ hfind0
              have hdone2 : switchLoop (omSet 0 Branch.mkDefault g.all_branches)
                  ((omSet 0 Branch.mkDefault g.all_branches).length + 1) head []
                  = .done ((k0, 0) :: tl) := by
                apply switchLoop_fuel_mono _ (g.all_branches.length + 1) _ head []
                · rw [← switchLoop_congr g.all_branches
                    (omSet 0 Branch.mkDefault g.all_branches)
                    (fun k hk => omFind_omSet_ne _ _ hk) _ head [] hh0]
                  exact hw
                · rw [hlen]
                  omega
              have e2 : omGetOrInsert (omSet 0 Branch.mkDefault g.all_branches) 0
                  Branch.mkDefault
                  = (Branch.mkDefault, omSet 0 Branch.mkDefault g.all_branches) := by
                unfold omGetOrInsert
                rw [omFind_omSet_self]
              simp only [e1, hdone2, e2]

/-- Graph for the C9 witness: one root-and-head branch 1 at heights 2..8. -/
def c9Graph : Graph :=
  { all_branches := [(1, ⟨1, 0, 500, 8, 501, 2, []⟩)], roots := [1], heads := [1],
    current_chain := [], current_chain_bottom_height := 0 }

/-- The state `switchToHead(1)` produces from `c9Graph`. -/
def c9Graph1 : Graph :=
  { all_branches := [(0, Branch.mkDefault), (1, ⟨1, 0, 500, 8, 501, 2, []⟩)],
    roots := [1], heads := [1],
    current_chain := [(1, 0), (8, 0)], current_chain_bottom_height := 0 }

/-- Witness for C9: repeating `switchToHead(1)` on the state reached from
`c9Graph` succeeds and changes nothing. -/
theorem c9_switchToHead_idempotent_witness :
    Graph.switchToHead c9Graph1 1 = (.ok (), c9Graph1) :=
  c9_switchToHead_idempotent c9Graph c9Graph1 1 (by decide)

/-! Claim C4: characterization of `Graph::load`. -/

/-- Record for the C4 counterexample: a root branch that arrives with a
pre-populated forks set `[7]` although no record with parent 1 exists. -/
def c4Junk : Branch := ⟨1, 0, 100, 5, 101, 1, [7]⟩

/-- Counterexample for C4: `load` succeeds on `[c4Junk]` but branch 1's
forks set is the input junk `[7]`, not "exactly its children" (it has no
children: no input record has parent 1). -/
theorem c4_load_forks_counterexample :
    (Graph.load [c4Junk]).1 = .ok () ∧
    omFind (Graph.load [c4Junk]).2.all_branches 1 = some c4Junk ∧
    (7 : BranchId) ∈ c4Junk.forks ∧
    (∀ b, b ∈ [c4Junk] → b.parent ≠ 1) := by decide

/-- The input conditions under which the claim says `load` must fail. -/
def loadBad (bs : List Branch) : Prop :=
  (∃ b ∈ bs, b.id = 0) ∨
  ¬ (bs.map Branch.id).Nodup ∨
  (∃ b ∈ bs, b.top_height < b.bottom_height) ∨
  (∃ b ∈ bs, b.parent = b.id) ∨
  (∃ b ∈ bs, b.parent ≠ 0 ∧ ∀ b2 ∈ bs, b2.id ≠ b.parent) ∨
  (∃ b ∈ bs, ∃ pb ∈ bs, b.parent ≠ 0 ∧ pb.id = b.parent ∧
    b.bottom_height ≤ pb.top_height)

/-- `loadPhase1` fails exactly on a zero id, an id colliding with the
accumulator, or duplicate ids in the input. -/
theorem loadPhase1_eq_none (bs : List Branch) :
    ∀ m : List (BranchId × Branch),
      (loadPhase1 bs m = none ↔
        (∃ b ∈ bs, b.id = 0 ∨ omFind m b.id ≠ none) ∨
        ¬ (bs.map Branch.id).Nodup) := by
  induction bs with
  | nil => intro m; simp [loadPhase1]
  | cons b rest ih =>
    intro m
    simp only [loadPhase1]
    by_cases h0 : b.id = 0
    · rw [if_pos h0]
      constructor
      · intro _
        exact Or.inl ⟨b, by simp, Or.inl h0⟩
      · intro _
        rfl
    · rw [if_neg h0]
      cases hf : omFind m b.id with
      | some bb =>
        simp only []
        constructor
        · intro _
          exact Or.inl ⟨b, by simp, Or.inr (by rw [hf]; simp)⟩
        · intro _
          trivial
      | none =>
        simp only []
        rw [ih (omSet b.id b m)]
        constructor
        · rintro (⟨b2, hb2, hcase⟩ | hnd)
          · rcases hcase with h | h
            · exact Or.inl ⟨b2, by simp [hb2], Or.inl h⟩
            · by_cases he : b2.id = b.id
              · refine Or.inr ?_
                intro hn
                rw [List.map_cons] at hn
                rcases List.nodup_cons.mp hn with ⟨hn1, _⟩
                exact hn1 (by rw [← he]; exact List.mem_map_of_mem _ hb2)
              · rw [omFind_omSet_ne _ _ he] at h
                exact Or.inl ⟨b2, by simp [hb2], Or.inr h⟩
          · refine Or.inr ?_
            intro hn
            rw [List.map_cons] at hn
            exact hnd (List.nodup_cons.mp hn).2
        · rintro (⟨b2, hb2, hcase⟩ | hnd)
          · rcases List.mem_cons.mp hb2 with rfl | hb2r
            · rcases hcase with h | h
              · exact absurd h h0
              · rw [hf] at h
                exact absurd rfl h
            · rcases hcase with h | h
              · exact Or.inl ⟨b2, hb2r, Or.inl h⟩
              · by_cases he : b2.id = b.id
                · exact Or.inl ⟨b2, hb2r, Or.inr (by rw [he, omFind_omSet_self]; simp)⟩
                · exact Or.inl ⟨b2, hb2r, Or.inr (by rw [omFind_omSet_ne _ _ he]; exact h)⟩
          · by_cases hdup : b.id ∈ rest.map Branch.id
            · obtain ⟨b2, hb2, hid⟩ := List.mem_map.mp hdup
              exact Or.inl ⟨b2, hb2, Or.inr (by rw [hid, omFind_omSet_self]; simp)⟩
            · refine Or.inr ?_
              intro hn
              exact hnd (by rw [List.map_cons]; exact List.nodup_cons.mpr ⟨hdup, hn⟩)

/-- Keys already present in the accumulator survive a successful
`loadPhase1` run untouched. -/
theorem loadPhase1_find_old (bs : List Branch) :
    ∀ (m m1 : List (BranchId × Branch)), loadPhase1 bs m = some m1 →
      ∀ k, omFind m k ≠ none → omFind m1 k = omFind m k := by
  induction bs with
  | nil =>
    intro m m1 h k _
    simp only [loadPhase1] at h
    cases h
    rfl
  | cons b rest ih =>
    intro m m1 h k hk
    simp only [loadPhase1] at h
    by_cases h0 : b.id = 0
    · rw [if_pos h0] at h
      cases h
    · rw [if_neg h0] at h
      cases hf : omFind m b.id with
      | some bb => rw [hf] at h; cases h
      | none =>
        rw [hf] at h
        simp only [] at h
        have hne : k ≠ b.id := by
          intro he
          rw [he, hf] at hk
          exact hk rfl
        rw [ih _ _ h k (by rw [omFind_omSet_ne _ _ hne]; exact hk),
          omFind_omSet_ne _ _ hne]

/-- Every input record is present (keyed by its id) after a successful
`loadPhase1` run. -/
theorem loadPhase1_find_new (bs : List Branch) :
    ∀ (m m1 : List (BranchId × Branch)), loadPhase1 bs m = some m1 →
      ∀ b ∈ bs, omFind m1 b.id = some b := by
  induction bs with
  | nil =>
    intro m m1 h b hb
    simp at hb
  | cons b rest ih =>
    intro m m1 h b2 hb2
    simp only [loadPhase1] at h
    by_cases h0 : b.id = 0
    · rw [if_pos h0] at h
      cases h
    · rw [if_neg h0] at h
      cases hf : omFind m b.id with
      | some bb => rw [hf] at h; cases h
      | none =>
        rw [hf] at h
        simp only [] at h
        rcases List.mem_cons.mp hb2 with rfl | hb2r
        · rw [loadPhase1_find_old rest _ _ h b2.id
            (by rw [omFind_omSet_self]; simp), omFind_omSet_self]
        · exact ih _ _ h b2 hb2r

/-- Entries of a successful `loadPhase1` result come from the accumulator
or from the input list. -/
theorem loadPhase1_find_src (bs : List Branch) :
    ∀ (m m1 : List (BranchId × Branch)), loadPhase1 bs m = some m1 →
      ∀ k b1, omFind m1 k = some b1 → omFind m k = some b1 ∨ b1 ∈ bs := by
  induction bs with
  | nil =>
    intro m m1 h k b1 hk
    simp only [loadPhase1] at h
    cases h
    exact Or.inl hk
  | cons b rest ih =>
    intro m m1 h k b1 hk
    simp only [loadPhase1] at h
    by_cases h0 : b.id = 0
    · rw [if_pos h0] at h
      cases h
    · rw [if_neg h0] at h
      cases hf : omFind m b.id with
      | some bb => rw [hf] at h; cases h
      | none =>
        rw [hf] at h
        simp only [] at h
        rcases ih _ _ h k b1 hk with hsrc | hsrc
        · by_cases he : k = b.id
          · rw [he, omFind_omSet_self] at hsrc
            cases hsrc
            exact Or.inr (by simp)
          · rw [omFind_omSet_ne _ _ he] at hsrc
            exact Or.inl hsrc
        · exact Or.inr (by simp [hsrc])

/-- Key-id coherence of `loadPhase1`: every stored record's id equals its
key. -/
theorem loadPhase1_key_id (bs : List Branch) :
    ∀ (m m1 : List (BranchId × Branch)), loadPhase1 bs m = some m1 →
      (∀ k b1, omFind m k = some b1 → b1.id = k) →
      ∀ k b1, omFind m1 k = some b1 → b1.id = k := by
  induction bs with
  | nil =>
    intro m m1 h hm k b1 hk
    simp only [loadPhase1] at h
    cases h
    exact hm k b1 hk
  | cons b rest ih =>
    intro m m1 h hm k b1 hk
    simp only [loadPhase1] at h
    by_cases h0 : b.id = 0
    · rw [if_pos h0] at h
      cases h
    · rw [if_neg h0] at h
      cases hf : omFind m b.id with
      | some bb => rw [hf] at h; cases h
      | none =>
        rw [hf] at h
        simp only [] at h
        refine ih _ _ h ?_ k b1 hk
        intro k2 b2 hk2
        by_cases he : k2 = b.id
        · rw [he, omFind_omSet_self] at hk2
          cases hk2
          exact he.symm ▸ rfl
        · rw [omFind_omSet_ne _ _ he] at hk2
          exact hm k2 b2 hk2

/-- The fields of a branch record that the `load` consistency checks read
(everything except the forks set, which phase 2 mutates). -/
def skel (b : Branch) : BranchId × BranchId × Height × Height :=
  (b.id, b.parent, b.top_height, b.bottom_height)

/-- The `load` phase-2 failure condition at one key of the reference map. -/
def phase2BadKey (m0 : List (BranchId × Branch)) (k : BranchId) : Prop :=
  match omFind m0 k with
  | none => True
  | some b =>
    b.top_height < b.bottom_height ∨
    (b.parent ≠ 0 ∧
      (b.parent = b.id ∨
        match omFind m0 b.parent with
        | none => True
        | some pb => b.bottom_height ≤ pb.top_height))

theorem skAgree_some {m m0 : List (BranchId × Branch)}
    (h : ∀ k, (omFind m k).map skel = (omFind m0 k).map skel)
    {k : BranchId} {b : Branch} (hf : omFind m k = some b) :
    ∃ b0, omFind m0 k = some b0 ∧ b.id = b0.id ∧ b.parent = b0.parent ∧
      b.top_height = b0.top_height ∧ b.bottom_height = b0.bottom_height := by
  have hk := h k
  rw [hf] at hk
  cases hf0 : omFind m0 k with
  | none =>
    rw [hf0] at hk
    simp at hk
  | some b0 =>
    rw [hf0] at hk
    simp only [Option.map_some'] at hk
    have h2 := Option.some.inj hk
    simp only [skel, Prod.mk.injEq] at h2
    exact ⟨b0, rfl, h2.1, h2.2.1, h2.2.2.1, h2.2.2.2⟩

theorem skAgree_step {m m0 : List (BranchId × Branch)} {p : BranchId} {pb : Branch}
    (h : ∀ k, (omFind m k).map skel = (omFind m0 k).map skel)
    (hf : omFind m p = some pb) (f2 : List BranchId) :
    ∀ k, (omFind (omSet p { pb with forks := f2 } m) k).map skel
      = (omFind m0 k).map skel := by
  intro k
  by_cases he : k = p
  · rw [he, omFind_omSet_self]
    have hp := h p
    rw [hf] at hp
    rw [← hp]
    rfl
  · rw [omFind_omSet_ne _ _ he]
    exact h k

/-- `loadPhase2` fails exactly when some processed key violates a phase-2
consistency condition of the reference map. -/
theorem loadPhase2_eq_none (m0 : List (BranchId × Branch)) :
    ∀ (ks : List BranchId) (m : List (BranchId × Branch)) (roots : List BranchId),
      (∀ k, (omFind m k).map skel = (omFind m0 k).map skel) →
      (loadPhase2 ks m roots = none ↔ ∃ k ∈ ks, phase2BadKey m0 k) := by
  intro ks
  induction ks with
  | nil =>
    intro m roots _
    simp [loadPhase2]
  | cons k rest ih =>
    intro m roots hsk
    simp only [loadPhase2]
    cases hf : omFind m k with
    | none =>
      have h0 : omFind m0 k = none := by
        have hk := hsk k
        rw [hf] at hk
        cases hx : omFind m0 k with
        | none => rfl
        | some b0 => rw [hx] at hk; simp at hk
      exact iff_of_true rfl ⟨k, List.mem_cons_self _ _,
        by simp [phase2BadKey, h0]⟩
    | some b =>
      simp only []
      obtain ⟨b0, hb0, hid, hpar, htop, hbot⟩ := skAgree_some hsk hf
      by_cases h1 : b.top_height < b.bottom_height
      · rw [if_pos h1]
        exact iff_of_true rfl ⟨k, List.mem_cons_self _ _,
          by simp only [phase2BadKey, hb0]; exact Or.inl (by rw [← htop, ← hbot]; exact h1)⟩
      · rw [if_neg h1]
        by_cases h2 : b.parent ≠ 0
        · rw [if_pos h2]
          by_cases h3 : b.parent = b.id
          · rw [if_pos h3]
            exact iff_of_true rfl ⟨k, List.mem_cons_self _ _,
              by
                simp only [phase2BadKey, hb0]
                exact Or.inr ⟨by rw [← hpar]; exact h2,
                  Or.inl (by rw [← hpar, ← hid]; exact h3)⟩⟩
          · rw [if_neg h3]
            cases hpf : omFind m b.parent with
            | none =>
              have h0 : omFind m0 b0.parent = none := by
                have hk := hsk b.parent
                rw [hpf] at hk
                rw [← hpar]
                cases hx : omFind m0 b.parent with
                | none => rfl
                | some pbx => rw [hx] at hk; simp at hk
              exact iff_of_true rfl ⟨k, List.mem_cons_self _ _,
                by
                  simp only [phase2BadKey, hb0, h0]
                  exact Or.inr ⟨by rw [← hpar]; exact h2, Or.inr trivial⟩⟩
            | some pb =>
              simp only []
              obtain ⟨pb0, hpb0, _, _, hptop, _⟩ := skAgree_some hsk hpf
              by_cases h4 : b.bottom_height ≤ pb.top_height
              · rw [if_pos h4]
                refine iff_of_true rfl ⟨k, List.mem_cons_self _ _, ?_⟩
                simp only [phase2BadKey, hb0]
                refine Or.inr ⟨by rw [← hpar]; exact h2, Or.inr ?_⟩
                rw [← hpar]
                simp only [hpb0]
                rw [← hbot, ← hptop]
                exact h4
              · rw [if_neg h4]
                have hnotbad : ¬ phase2BadKey m0 k := by
                  simp only [phase2BadKey, hb0]
                  intro hbad
                  rcases hbad with hx | ⟨_, hx⟩
                  · rw [← htop, ← hbot] at hx
                    exact h1 hx
                  · rcases hx with hx | hx
                    · rw [← hpar, ← hid] at hx
                      exact h3 hx
                    · rw [← hpar] at hx
                      simp only [hpb0] at hx
                      rw [← hbot, ← hptop] at hx
                      exact h4 hx
                rw [ih _ _ (skAgree_step hsk hpf _)]
                constructor
                · rintro ⟨k2, hk2, hb⟩
                  exact ⟨k2, List.mem_cons_of_mem _ hk2, hb⟩
                · rintro ⟨k2, hk2, hb⟩
                  rcases List.mem_cons.mp hk2 with rfl | hk2r
                  · exact absurd hb hnotbad
                  · exact ⟨k2, hk2r, hb⟩
        · rw [if_neg h2]
          push_neg at h2
          have hnotbad : ¬ phase2BadKey m0 k := by
            simp only [phase2BadKey, hb0]
            intro hbad
            rcases hbad with hx | ⟨hx, _⟩
            · rw [← htop, ← hbot] at hx
              exact h1 hx
            · rw [← hpar] at hx
              exact hx h2
          rw [ih _ _ hsk]
          constructor
          · rintro ⟨k2, hk2, hb⟩
            exact ⟨k2, List.mem_cons_of_mem _ hk2, hb⟩
          · rintro ⟨k2, hk2, hb⟩
            rcases List.mem_cons.mp hk2 with rfl | hk2r
            · exact absurd hb hnotbad
            · exact ⟨k2, hk2r, hb⟩

/-- Roots collected by a successful `loadPhase2` run: the start set plus the
ids of processed records with parent `0`. -/
theorem loadPhase2_roots (m0 : List (BranchId × Branch)) :
    ∀ (ks : List BranchId) (m : List (BranchId × Branch)) (roots : List BranchId)
      (m2 : List (BranchId × Branch)) (roots2 : List BranchId),
      (∀ k, (omFind m k).map skel = (omFind m0 k).map skel) →
      loadPhase2 ks m roots = some (m2, roots2) →
      ∀ i, (i ∈ roots2 ↔ i ∈ roots ∨
        ∃ k ∈ ks, ∃ b0, omFind m0 k = some b0 ∧ b0.id = i ∧ b0.parent = 0) := by
  intro ks
  induction ks with
  | nil =>
    intro m roots m2 roots2 _ h i
    simp only [loadPhase2] at h
    cases h
    simp
  | cons k rest ih =>
    intro m roots m2 roots2 hsk h i
    simp only [loadPhase2] at h
    cases hf : omFind m k with
    | none =>
      simp only [hf] at h
      exact Option.noConfusion h
    | some b =>
      simp only [hf] at h
      obtain ⟨b0, hb0, hid, hpar, htop, hbot⟩ := skAgree_some hsk hf
      by_cases h1 : b.top_height < b.bottom_height
      · rw [if_pos h1] at h
        simp at h
      · rw [if_neg h1] at h
        by_cases h2 : b.parent ≠ 0
        · rw [if_pos h2] at h
          by_cases h3 : b.parent = b.id
          · rw [if_pos h3] at h
            simp at h
          · rw [if_neg h3] at h
            cases hpf : omFind m b.parent with
            | none =>
              simp only [hpf] at h
              exact Option.noConfusion h
            | some pb =>
              simp only [hpf] at h
              by_cases h4 : b.bottom_height ≤ pb.top_height
              · rw [if_pos h4] at h
                simp at h
              · rw [if_neg h4] at h
                rw [ih _ _ _ _ (skAgree_step hsk hpf _) h i]
                have hknot : ¬ ∃ b1, omFind m0 k = some b1 ∧ b1.id = i ∧ b1.parent = 0 := by
                  rintro ⟨b1, hb1, -, hb1p⟩
                  rw [hb0] at hb1
                  cases hb1
                  rw [← hpar] at hb1p
                  exact h2 hb1p
                constructor
                · rintro (hr | ⟨k2, hk2, hrest⟩)
                  · exact Or.inl hr
                  · exact Or.inr ⟨k2, List.mem_cons_of_mem _ hk2, hrest⟩
                · rintro (hr | ⟨k2, hk2, hrest⟩)
                  · exact Or.inl hr
                  · rcases List.mem_cons.mp hk2 with rfl | hk2r
                    · exact absurd hrest hknot
                    · exact Or.inr ⟨k2, hk2r, hrest⟩
        · rw [if_neg h2] at h
          push_neg at h2
          rw [ih _ _ _ _ hsk h i]
          have hkiff : (∃ b1, omFind m0 k = some b1 ∧ b1.id = i ∧ b1.parent = 0)
              ↔ b.id = i := by
            constructor
            · rintro ⟨b1, hb1, hb1i, -⟩
              rw [hb0] at hb1
              cases hb1
              rw [hid]
              exact hb1i
            · intro hbi
              exact ⟨b0, hb0, by rw [← hid]; exact hbi, by rw [← hpar]; exact h2⟩
          rw [mem_setInsert]
          constructor
          · rintro ((hbi | hr) | ⟨k2, hk2, hrest⟩)
            · exact Or.inr ⟨k, List.mem_cons_self _ _, hkiff.mpr hbi.symm⟩
            · exact Or.inl hr
            · exact Or.inr ⟨k2, List.mem_cons_of_mem _ hk2, hrest⟩
          · rintro (hr | ⟨k2, hk2, hrest⟩)
            · exact Or.inl (Or.inr hr)
            · rcases List.mem_cons.mp hk2 with rfl | hk2r
              · exact Or.inl (Or.inl (hkiff.mp hrest).symm)
              · exact Or.inr ⟨k2, hk2r, hrest⟩

/-- Forks after a successful `loadPhase2` run: the record's incoming forks
set plus the ids of processed records naming it as parent. -/
theorem loadPhase2_forks (m0 : List (BranchId × Branch)) :
    ∀ (ks : List BranchId) (m : List (BranchId × Branch)) (roots : List BranchId)
      (m2 : List (BranchId × Branch)) (roots2 : List BranchId),
      (∀ k, (omFind m k).map skel = (omFind m0 k).map skel) →
      loadPhase2 ks m roots = some (m2, roots2) →
      ∀ k1 sb2, omFind m2 k1 = some sb2 →
        ∃ sb, omFind m k1 = some sb ∧
          ∀ x, (x ∈ sb2.forks ↔ x ∈ sb.forks ∨
            ∃ k2 ∈ ks, ∃ b0, omFind m0 k2 = some b0 ∧ b0.parent ≠ 0 ∧
              b0.parent = k1 ∧ b0.id = x) := by
  intro ks
  induction ks with
  | nil =>
    intro m roots m2 roots2 _ h k1 sb2 hk1
    simp only [loadPhase2] at h
    cases h
    exact ⟨sb2, hk1, by simp⟩
  | cons k rest ih =>
    intro m roots m2 roots2 hsk h k1 sb2 hk1
    simp only [loadPhase2] at h
    cases hf : omFind m k with
    | none =>
      simp only [hf] at h
      exact Option.noConfusion h
    | some b =>
      simp only [hf] at h
      obtain ⟨b0, hb0, hid, hpar, htop, hbot⟩ := skAgree_some hsk hf
      by_cases h1 : b.top_height < b.bottom_height
      · rw [if_pos h1] at h
        simp at h
      · rw [if_neg h1] at h
        by_cases h2 : b.parent ≠ 0
        · rw [if_pos h2] at h
          by_cases h3 : b.parent = b.id
          · rw [if_pos h3] at h
            simp at h
          · rw [if_neg h3] at h
            cases hpf : omFind m b.parent with
            | none =>
              simp only [hpf] at h
              exact Option.noConfusion h
            | some pb =>
              simp only [hpf] at h
              by_cases h4 : b.bottom_height ≤ pb.top_height
              · rw [if_pos h4] at h
                simp at h
              · rw [if_neg h4] at h
                obtain ⟨sb1, hsb1, hiff⟩ :=
                  ih _ _ _ _ (skAgree_step hsk hpf _) h k1 sb2 hk1
                have hkiff : ∀ x,
                    ((∃ b1, omFind m0 k = some b1 ∧ b1.parent ≠ 0 ∧
                      b1.parent = k1 ∧ b1.id = x) ↔ (b.parent = k1 ∧ b.id = x)) := by
                  intro x
                  constructor
                  · rintro ⟨b1, hb1, -, hb1p, hb1i⟩
                    rw [hb0] at hb1
                    cases hb1
                    exact ⟨by rw [hpar]; exact hb1p, by rw [hid]; exact hb1i⟩
                  · rintro ⟨hbp, hbi⟩
                    exact ⟨b0, hb0, by rw [← hpar]; exact h2,
                      by rw [← hpar]; exact hbp, by rw [← hid]; exact hbi⟩
                by_cases hkey : k1 = b.parent
                · subst hkey
                  rw [omFind_omSet_self] at hsb1
                  cases hsb1
                  refine ⟨pb, hpf, ?_⟩
                  intro x
                  rw [hiff x]
                  simp only [mem_setInsert]
                  constructor
                  · rintro ((hx | hx) | ⟨k2, hk2, hrest⟩)
                    · exact Or.inr ⟨k, List.mem_cons_self _ _,
                        (hkiff x).mpr ⟨rfl, hx.symm⟩⟩
                    · exact Or.inl hx
                    · exact Or.inr ⟨k2, List.mem_cons_of_mem _ hk2, hrest⟩
                  · rintro (hx | ⟨k2, hk2, hrest⟩)
                    · exact Or.inl (Or.inr hx)
                    · rcases List.mem_cons.mp hk2 with rfl | hk2r
                      · exact Or.inl (Or.inl ((hkiff x).mp hrest).2.symm)
                      · exact Or.inr ⟨k2, hk2r, hrest⟩
                · rw [omFind_omSet_ne _ _ hkey] at hsb1
                  refine ⟨sb1, hsb1, ?_⟩
                  intro x
                  rw [hiff x]
                  constructor
                  · rintro (hx | ⟨k2, hk2, hrest⟩)
                    · exact Or.inl hx
                    · exact Or.inr ⟨k2, List.mem_cons_of_mem _ hk2, hrest⟩
                  · rintro (hx | ⟨k2, hk2, hrest⟩)
                    · exact Or.inl hx
                    · rcases List.mem_cons.mp hk2 with rfl | hk2r
                      · exact absurd (((hkiff x).mp hrest).1.symm) hkey
                      · exact Or.inr ⟨k2, hk2r, hrest⟩
        · rw [if_neg h2] at h
          push_neg at h2
          obtain ⟨sb1, hsb1, hiff⟩ := ih _ _ _ _ hsk h k1 sb2 hk1
          refine ⟨sb1, hsb1, ?_⟩
          intro x
          rw [hiff x]
          constructor
          · rintro (hx | ⟨k2, hk2, hrest⟩)
            · exact Or.inl hx
            · exact Or.inr ⟨k2, List.mem_cons_of_mem _ hk2, hrest⟩
          · rintro (hx | ⟨k2, hk2, hrest⟩)
            · exact Or.inl hx
            · rcases List.mem_cons.mp hk2 with rfl | hk2r
              · obtain ⟨b1, hb1, hb1ne, -, -⟩ := hrest
                rw [hb0] at hb1
                cases hb1
                rw [← hpar] at hb1ne
                exact absurd h2 hb1ne
              · exact Or.inr ⟨k2, hk2r, hrest⟩

/-- A successful `loadPhase2` run preserves every field but the forks. -/
theorem loadPhase2_skel (m0 : List (BranchId × Branch)) :
    ∀ (ks : List BranchId) (m : List (BranchId × Branch)) (roots : List BranchId)
      (m2 : List (BranchId × Branch)) (roots2 : List BranchId),
      (∀ k, (omFind m k).map skel = (omFind m0 k).map skel) →
      loadPhase2 ks m roots = some (m2, roots2) →
      ∀ k, (omFind m2 k).map skel = (omFind m0 k).map skel := by
  intro ks
  induction ks with
  | nil =>
    intro m roots m2 roots2 hsk h
    simp only [loadPhase2] at h
    cases h
    exact hsk
  | cons k rest ih =>
    intro m roots m2 roots2 hsk h
    simp only [loadPhase2] at h
    cases hf : omFind m k with
    | none =>
      simp only [hf] at h
      exact Option.noConfusion h
    | some b =>
      simp only [hf] at h
      by_cases h1 : b.top_height < b.bottom_height
      · rw [if_pos h1] at h
        simp at h
      · rw [if_neg h1] at h
        by_cases h2 : b.parent ≠ 0
        · rw [if_pos h2] at h
          by_cases h3 : b.parent = b.id
          · rw [if_pos h3] at h
            simp at h
          · rw [if_neg h3] at h
            cases hpf : omFind m b.parent with
            | none =>
              simp only [hpf] at h
              exact Option.noConfusion h
            | some pb =>
              simp only [hpf] at h
              by_cases h4 : b.bottom_height ≤ pb.top_height
              · rw [if_pos h4] at h
                simp at h
              · rw [if_neg h4] at h
                exact ih _ _ _ _ (skAgree_step hsk hpf _) h
        · rw [if_neg h2] at h
          exact ih _ _ _ _ hsk h

/-- Strictly increasing keys, the `std::map` representation invariant. -/
def omKeySorted {α : Type} (m : List (Nat × α)) : Prop :=
  m.Pairwise (fun a b => a.1 < b.1)

theorem omSet_pairwise {α : Type} {m : List (Nat × α)} (k : Nat) (v : α)
    (h : omKeySorted m) : omKeySorted (omSet k v m) := by
  induction m with
  | nil => simp [omSet, omKeySorted]
  | cons hd tl ih =>
    obtain ⟨k1, v1⟩ := hd
    rcases List.pairwise_cons.mp h with ⟨hall, htl⟩
    by_cases he : k = k1
    · rw [show omSet k v ((k1, v1) :: tl) = (k, v) :: tl by simp [omSet, he]]
      exact List.pairwise_cons.mpr ⟨by rw [he]; exact hall, htl⟩
    · by_cases h2 : k < k1
      · rw [show omSet k v ((k1, v1) :: tl) = (k, v) :: (k1, v1) :: tl by
              simp [omSet, he, h2]]
        refine List.pairwise_cons.mpr ⟨?_, h⟩
        intro y hy
        rcases List.mem_cons.mp hy with rfl | hy2
        · exact h2
        · exact lt_trans h2 (hall y hy2)
      · rw [show omSet k v ((k1, v1) :: tl) = (k1, v1) :: omSet k v tl by
              simp [omSet, he, h2]]
        refine List.pairwise_cons.mpr ⟨?_, ih htl⟩
        intro y hy
        rcases mem_omSet hy with rfl | hy2
        · omega
        · exact hall y hy2

theorem find_eq_some_of_mem {α : Type} {m : List (Nat × α)} {k : Nat} {v : α}
    (hs : omKeySorted m) (hm : (k, v) ∈ m) : omFind m k = some v := by
  induction m with
  | nil => simp at hm
  | cons hd tl ih =>
    obtain ⟨k1, v1⟩ := hd
    rcases List.pairwise_cons.mp hs with ⟨hall, htl⟩
    rcases List.mem_cons.mp hm with he | hm2
    · cases he
      simp [omFind]
    · have hk : k1 < k := hall _ hm2
      have hne : ¬ k = k1 := by omega
      simp only [omFind, if_neg hne]
      exact ih htl hm2

/-- `loadPhase1` keeps the key ordering invariant. -/
theorem loadPhase1_sorted (bs : List Branch) :
    ∀ (m m1 : List (BranchId × Branch)), loadPhase1 bs m = some m1 →
      omKeySorted m → omKeySorted m1 := by
  induction bs with
  | nil =>
    intro m m1 h hs
    simp only [loadPhase1] at h
    cases h
    exact hs
  | cons b rest ih =>
    intro m m1 h hs
    simp only [loadPhase1] at h
    by_cases h0 : b.id = 0
    · rw [if_pos h0] at h
      cases h
    · rw [if_neg h0] at h
      cases hf : omFind m b.id with
      | some bb => rw [hf] at h; cases h
      | none =>
        rw [hf] at h
        simp only [] at h
        exact ih _ _ h (omSet_pairwise _ _ hs)

/-- `loadPhase2` keeps the key ordering invariant. -/
theorem loadPhase2_sorted :
    ∀ (ks : List BranchId) (m : List (BranchId × Branch)) (roots : List BranchId)
      (m2 : List (BranchId × Branch)) (roots2 : List BranchId),
      loadPhase2 ks m roots = some (m2, roots2) → omKeySorted m → omKeySorted m2 := by
  intro ks
  induction ks with
  | nil =>
    intro m roots m2 roots2 h hs
    simp only [loadPhase2] at h
    cases h
    exact hs
  | cons k rest ih =>
    intro m roots m2 roots2 h hs
    simp only [loadPhase2] at h
    cases hf : omFind m k with
    | none =>
      simp only [hf] at h
      exact Option.noConfusion h
    | some b =>
      simp only [hf] at h
      by_cases h1 : b.top_height < b.bottom_height
      · rw [if_pos h1] at h
        simp at h
      · rw [if_neg h1] at h
        by_cases h2 : b.parent ≠ 0
        · rw [if_pos h2] at h
          by_cases h3 : b.parent = b.id
          · rw [if_pos h3] at h
            simp at h
          · rw [if_neg h3] at h
            cases hpf : omFind m b.parent with
            | none =>
              simp only [hpf] at h
              exact Option.noConfusion h
            | some pb =>
              simp only [hpf] at h
              by_cases h4 : b.bottom_height ≤ pb.top_height
              · rw [if_pos h4] at h
                simp at h
              · rw [if_neg h4] at h
                exact ih _ _ _ _ h (omSet_pairwise _ _ hs)
        · rw [if_neg h2] at h
          exact ih _ _ _ _ h hs

/-- C4 as amended: `load` fails with `GRAPH_LOAD_ERROR` exactly on the
claimed input conditions and wipes all state on failure; on success `roots`
holds exactly the ids of input records with parent `0`, `heads` exactly the
branches whose final forks set is empty, and each stored branch's forks set
is its own input forks plus the ids of its children (rather than exactly its
children, as the claim put it). -/
theorem c4_load_spec_amended (bs : List Branch) :
    ((Graph.load bs).1 = .err .GRAPH_LOAD_ERROR ↔ loadBad bs) ∧
    ((Graph.load bs).1 = .err .GRAPH_LOAD_ERROR → (Graph.load bs).2 = Graph.empty) ∧
    ((Graph.load bs).1 = .ok () →
      (∀ i, i ∈ (Graph.load bs).2.roots ↔ ∃ b ∈ bs, b.id = i ∧ b.parent = 0) ∧
      (∀ i, i ∈ (Graph.load bs).2.heads ↔
        ∃ b, omFind (Graph.load bs).2.all_branches i = some b ∧ b.forks = []) ∧
      (∀ p pb, omFind (Graph.load bs).2.all_branches p = some pb →
        ∀ x, (x ∈ pb.forks ↔
          ((∃ b ∈ bs, b.id = p ∧ x ∈ b.forks) ∨
           (∃ b ∈ bs, b.id = x ∧ b.parent = p))))) := by
  cases hp1 : loadPhase1 bs [] with
  | none =>
    have hbad : loadBad bs := by
      have hx := (loadPhase1_eq_none bs []).mp hp1
      rcases hx with ⟨b, hb, hc⟩ | hnd
      · rcases hc with hc | hc
        · exact Or.inl ⟨b, hb, hc⟩
        · simp [omFind] at hc
      · exact Or.inr (Or.inl hnd)
    refine ⟨?_, ?_, ?_⟩
    · simp only [Graph.load, hp1]
      exact iff_of_true trivial hbad
    · intro _
      simp only [Graph.load, hp1]
    · intro hok
      simp only [Graph.load, hp1] at hok
      cases hok
  | some m0 =>
    have hgood : ¬ ((∃ b ∈ bs, b.id = 0 ∨ omFind ([] : List (BranchId × Branch)) b.id ≠ none) ∨
        ¬ (bs.map Branch.id).Nodup) := by
      intro hx
      rw [(loadPhase1_eq_none bs []).mpr hx] at hp1
      cases hp1
    have hnz : ∀ b ∈ bs, b.id ≠ 0 := by
      intro b hb h0
      exact hgood (Or.inl ⟨b, hb, Or.inl h0⟩)
    have hnd : (bs.map Branch.id).Nodup := by
      by_contra hx
      exact hgood (Or.inr hx)
    have hm0new : ∀ b ∈ bs, omFind m0 b.id = some b :=
      loadPhase1_find_new bs [] m0 hp1
    have hm0src : ∀ k b1, omFind m0 k = some b1 → b1 ∈ bs := by
      intro k b1 hk
      rcases loadPhase1_find_src bs [] m0 hp1 k b1 hk with hx | hx
      · simp [omFind] at hx
      · exact hx
    have hm0id : ∀ k b1, omFind m0 k = some b1 → b1.id = k :=
      loadPhase1_key_id bs [] m0 hp1 (by intro k b1 hx; simp [omFind] at hx)
    have hm0sorted : omKeySorted m0 :=
      loadPhase1_sorted bs [] m0 hp1 (by simp [omKeySorted])
    have hskrefl : ∀ k, (omFind m0 k).map skel = (omFind m0 k).map skel :=
      fun _ => rfl
    have hkey_iff : ∀ k, k ∈ m0.map Prod.fst ↔ ∃ b1, omFind m0 k = some b1 := by
      intro k
      constructor
      · intro hk
        obtain ⟨⟨k2, v⟩, hm, hfst⟩ := List.mem_map.mp hk
        cases hfst
        exact ⟨v, find_eq_some_of_mem hm0sorted hm⟩
      · rintro ⟨b1, hb1⟩
        exact List.mem_map.mpr ⟨(k, b1), omFind_mem hb1, rfl⟩
    cases hp2 : loadPhase2 (m0.map Prod.fst) m0 [] with
    | none =>
      have hbad : loadBad bs := by
        obtain ⟨k, hk, hbadk⟩ :=
          (loadPhase2_eq_none m0 (m0.map Prod.fst) m0 [] hskrefl).mp hp2
        obtain ⟨b1, hb1⟩ := (hkey_iff k).mp hk
        simp only [phase2BadKey, hb1] at hbadk
        rcases hbadk with h | ⟨hp0, h⟩
        · exact Or.inr (Or.inr (Or.inl ⟨b1, hm0src _ _ hb1, h⟩))
        · rcases h with h | h
          · exact Or.inr (Or.inr (Or.inr (Or.inl ⟨b1, hm0src _ _ hb1, h⟩)))
          · cases hpp : omFind m0 b1.parent with
            | none =>
              refine Or.inr (Or.inr (Or.inr (Or.inr (Or.inl
                ⟨b1, hm0src _ _ hb1, hp0, ?_⟩))))
              intro b2 hb2 hbe
              rw [← hbe] at hpp
              rw [hm0new b2 hb2] at hpp
              cases hpp
            | some pb1 =>
              simp only [hpp] at h
              exact Or.inr (Or.inr (Or.inr (Or.inr (Or.inr
                ⟨b1, hm0src _ _ hb1, pb1, hm0src _ _ hpp, hp0, hm0id _ _ hpp, h⟩))))
      refine ⟨?_, ?_, ?_⟩
      · simp only [Graph.load, hp1, hp2]
        exact iff_of_true trivial hbad
      · intro _
        simp only [Graph.load, hp1, hp2]
      · intro hok
        simp only [Graph.load, hp1, hp2] at hok
        cases hok
    | some pr =>
      obtain ⟨m2, roots2⟩ := pr
      have hnotbad : ¬ loadBad bs := by
        intro hbad
        have hfail : ∃ k ∈ m0.map Prod.fst, phase2BadKey m0 k := by
          rcases hbad with h | h | h | h | h | h
          · obtain ⟨b, hb, h0⟩ := h
            exact absurd h0 (hnz b hb)
          · exact absurd hnd h
          · obtain ⟨b, hb, hlt⟩ := h
            refine ⟨b.id, (hkey_iff b.id).mpr ⟨b, hm0new b hb⟩, ?_⟩
            simp only [phase2BadKey, hm0new b hb]
            exact Or.inl hlt
          · obtain ⟨b, hb, heq⟩ := h
            refine ⟨b.id, (hkey_iff b.id).mpr ⟨b, hm0new b hb⟩, ?_⟩
            simp only [phase2BadKey, hm0new b hb]
            exact Or.inr ⟨by rw [heq]; exact hnz b hb, Or.inl heq⟩
          · obtain ⟨b, hb, hp0, hnone⟩ := h
            refine ⟨b.id, (hkey_iff b.id).mpr ⟨b, hm0new b hb⟩, ?_⟩
            simp only [phase2BadKey, hm0new b hb]
            refine Or.inr ⟨hp0, Or.inr ?_⟩
            cases hpp : omFind m0 b.parent with
            | none => trivial
            | some pb =>
              exact absurd (hm0id _ _ hpp) (hnone pb (hm0src _ _ hpp))
          · obtain ⟨b, hb, pb, hpb, hp0, hpid, hle⟩ := h
            refine ⟨b.id, (hkey_iff b.id).mpr ⟨b, hm0new b hb⟩, ?_⟩
            simp only [phase2BadKey, hm0new b hb]
            refine Or.inr ⟨hp0, Or.inr ?_⟩
            have hfp : omFind m0 b.parent = some pb := by
              rw [← hpid]
              exact hm0new pb hpb
            simp only [hfp]
            exact hle
        rw [← loadPhase2_eq_none m0 (m0.map Prod.fst) m0 [] hskrefl] at hfail
        rw [hfail] at hp2
        cases hp2
      have hm2id : ∀ k b, omFind m2 k = some b → b.id = k := by
        intro k b hk
        obtain ⟨b0, hb0, hbid, -, -, -⟩ := skAgree_some
          (loadPhase2_skel m0 (m0.map Prod.fst) m0 [] m2 roots2 hskrefl hp2) hk
        rw [hbid]
        exact hm0id _ _ hb0
      have hm2sorted : omKeySorted m2 :=
        loadPhase2_sorted (m0.map Prod.fst) m0 [] m2 roots2 hp2 hm0sorted
      refine ⟨?_, ?_, ?_⟩
      · simp only [Graph.load, hp1, hp2]
        exact iff_of_false (by simp) hnotbad
      · intro hx
        simp only [Graph.load, hp1, hp2] at hx
        cases hx
      · intro _
        refine ⟨?_, ?_, ?_⟩
        · intro i
          simp only [Graph.load, hp1, hp2]
          rw [loadPhase2_roots m0 (m0.map Prod.fst) m0 [] m2 roots2 hskrefl hp2 i]
          constructor
          · rintro (hx | ⟨k, hk, b0, hb0, hbi, hbp⟩)
            · simp at hx
            · exact ⟨b0, hm0src _ _ hb0, hbi, hbp⟩
          · rintro ⟨b, hb, hbi, hbp⟩
            exact Or.inr ⟨b.id, (hkey_iff b.id).mpr ⟨b, hm0new b hb⟩, b,
              hm0new b hb, hbi, hbp⟩
        · intro i
          simp only [Graph.load, hp1, hp2]
          constructor
          · intro hi
            obtain ⟨b, hbmem, hfb⟩ := List.mem_filterMap.mp hi
            by_cases hforks : b.forks = []
            · rw [if_pos hforks] at hfb
              have hbi : b.id = i := Option.some.inj hfb
              obtain ⟨kv, hkv, hsnd⟩ := List.mem_map.mp hbmem
              have hfind : omFind m2 kv.1 = some b := by
                have h2 : (kv.1, b) ∈ m2 := by
                  rw [← hsnd]
                  exact hkv
                exact find_eq_some_of_mem hm2sorted h2
              have hk : b.id = kv.1 := hm2id _ _ hfind
              rw [← hbi, hk]
              exact ⟨b, hfind, hforks⟩
            · rw [if_neg hforks] at hfb
              cases hfb
          · rintro ⟨b, hfind, hforks⟩
            refine List.mem_filterMap.mpr ⟨b, ?_, ?_⟩
            · exact List.mem_map.mpr ⟨(i, b), omFind_mem hfind, rfl⟩
            · rw [if_pos hforks, hm2id _ _ hfind]
        · intro p pb hfind x
          simp only [Graph.load, hp1, hp2] at hfind
          obtain ⟨sb, hsb, hiff⟩ := loadPhase2_forks m0 (m0.map Prod.fst) m0 []
            m2 roots2 hskrefl hp2 p pb hfind
          have hsbbs : sb ∈ bs := hm0src _ _ hsb
          have hsbid : sb.id = p := hm0id _ _ hsb
          have hpnz : p ≠ 0 := by
            rw [← hsbid]
            exact hnz sb hsbbs
          rw [hiff x]
          constructor
          · rintro (hx | ⟨k2, hk2, b0, hb0, -, hbp, hbi⟩)
            · exact Or.inl ⟨sb, hsbbs, hsbid, hx⟩
            · exact Or.inr ⟨b0, hm0src _ _ hb0, hbi, hbp⟩
          · rintro (⟨b, hb, hbip, hxb⟩ | ⟨b, hb, hbix, hbpp⟩)
            · have : omFind m0 p = some b := by
                rw [← hbip]
                exact hm0new b hb
              rw [hsb] at this
              cases this
              exact Or.inl hxb
            · refine Or.inr ⟨b.id, (hkey_iff b.id).mpr ⟨b, hm0new b hb⟩, b,
                hm0new b hb, ?_, hbpp, hbix⟩
              rw [hbpp]
              exact hpnz

/-- Record used by the C4 witness. -/
def c4WitBranch : Branch := ⟨5, 0, 900, 9, 901, 4, []⟩

/-- Witness for C4 (amended): loading the same record twice is a duplicate
id, so `load` fails with `GRAPH_LOAD_ERROR` and wipes all state. -/
theorem c4_load_spec_amended_witness :
    (Graph.load [c4WitBranch, c4WitBranch]).1 = .err .GRAPH_LOAD_ERROR ∧
    (Graph.load [c4WitBranch, c4WitBranch]).2 = Graph.empty :=
  ⟨(c4_load_spec_amended [c4WitBranch, c4WitBranch]).1.mpr
      (Or.inr (Or.inl (by decide))),
   (c4_load_spec_amended [c4WitBranch, c4WitBranch]).2.1
      ((c4_load_spec_amended [c4WitBranch, c4WitBranch]).1.mpr
        (Or.inr (Or.inl (by decide))))⟩

end FcSync
